import Mathlib

/-!
Verification development for the DecentraChat transport and delivery
subsystem: the relay signaling server (presence, store-and-forward,
bounded conversation history), the local message store (dedup, sort,
retention), the NaCl-box encryption wrappers, and the client delivery
coordinator (send, outbox, flush, receive-decrypt).

JavaScript semantics conventions used throughout the embedding:
* `x || d` on numbers / strings is modelled by `jsOrN` / `jsOrS` /
  `jsOrOS`, which treat `undefined`/`null` (here `Option.none`), `0`
  and `""` as falsy, exactly as JS does.
* JS object spread `{...m, f: v}` is modelled by structure update.
* `Array.prototype.sort(cmp)` (stable in modern engines) is modelled by
  a stable left-to-right insertion sort `sortJS`.
* `String.prototype.localeCompare` (default locale) and the default
  array string sort are modelled by code-point lexicographic order
  `strLe` on the character list of the string.
* `Map` objects are modelled as association lists with
  last-insert-wins lookup.
* `Date.now()` and random id / nonce generation are modelled as
  explicit parameters supplied by the environment.
-/

/-- JS `a || d` for an optional number (`0` is falsy). -/
def jsOrN (a : Option Nat) (d : Nat) : Nat :=
  match a with
  | none => d
  | some v => if v = 0 then d else v

/-- JS `a || d` for an optional string with a string default (`""` is falsy). -/
def jsOrS (a : Option String) (d : String) : String :=
  match a with
  | none => d
  | some v => if v = "" then d else v

/-- JS `a || d` for an optional string with an optional default. -/
def jsOrOS (a : Option String) (d : Option String) : Option String :=
  match a with
  | none => d
  | some v => if v = "" then d else some v

/-- JS truthiness of an optional string (`undefined`, `null`, `""` falsy). -/
def truthyS (a : Option String) : Bool :=
  match a with
  | none => false
  | some v => v ≠ ""

/-- Code-point lexicographic `≤` on character lists; executable model of
`localeCompare(a,b) <= 0` and of default JS string comparison. -/
def codeLe : List Char → List Char → Bool
  | [], _ => true
  | _ :: _, [] => false
  | a :: as, b :: bs =>
    if a.toNat < b.toNat then true
    else if b.toNat < a.toNat then false
    else codeLe as bs

/-- Lexicographic string `≤` by code points. -/
def strLe (a b : String) : Bool := codeLe a.data b.data

/-- ASCII lowercasing of one character (model of JS `toLowerCase`). -/
def charLower (c : Char) : Char :=
  if 65 ≤ c.toNat ∧ c.toNat ≤ 90 then Char.ofNat (c.toNat + 32) else c

/-- Model of JS `String.prototype.toLowerCase` (ASCII range). -/
def strLower (s : String) : String := ⟨s.data.map charLower⟩

/-- An idealized NaCl `box` ciphertext (the source carries it as an opaque
base64 string): it records the canonical unordered pair of the two public
keys whose shared secret sealed it, the nonce, and the sealed plaintext.
`box.open` recovers the plaintext exactly when it is invoked with key
material deriving the same shared pair and the same nonce, which is the
authenticated-encryption contract of `nacl.box` / `nacl.box.open`. -/
structure Cipher where
  k1 : String
  k2 : String
  cnonce : String
  plain : String
deriving DecidableEq, Repr

/-- A chat message / wire payload record.  JS message objects are dynamic;
optional fields model properties that may be `undefined`. -/
structure Msg where
  id : Option String := none
  from_ : Option String := none
  to_ : String := ""
  content : Option String := none
  encrypted : Option Cipher := none
  nonce : Option String := none
  senderPublicKey : Option String := none
  senderUsername : Option String := none
  replyTo : Option String := none
  timestamp : Nat := 0
  savedAt : Option Nat := none
  status : Option String := none
  transport : Option String := none
  groupId : Option String := none
  groupName : Option String := none
  type_ : Option String := none
  queuedAt : Option Nat := none
  decryptionFailed : Option Bool := none
deriving DecidableEq, Repr

/-- Model of `a.savedAt || a.timestamp`: the sort time of a stored message. -/
def sortTime (a : Msg) : Nat := jsOrN a.savedAt a.timestamp

/-- Model of `(a.id || '')`: the id string used as the sort tiebreak. -/
def idStr (a : Msg) : String := jsOrS a.id ""

/-- Model of `messageSort(a, b) <= 0` for the comparator of `storageService`:
order by `savedAt || timestamp`, tiebreak by `localeCompare` on ids. -/
def msgLe (a b : Msg) : Bool :=
  (sortTime a < sortTime b) || ((sortTime a == sortTime b) && strLe (idStr a) (idStr b))

/-- Insert `x` into a sorted list, after any run of elements `y` with
`le y x` — the insertion step of a stable sort. -/
def insertSorted (le : Msg → Msg → Bool) (x : Msg) : List Msg → List Msg
  | [] => [x]
  | y :: ys => if le y x then y :: insertSorted le x ys else x :: y :: ys

/-- Stable left-to-right insertion sort: the model of JS
`Array.prototype.sort(cmp)` (stable per the ECMAScript spec). -/
def sortJS (le : Msg → Msg → Bool) (l : List Msg) : List Msg :=
  l.foldl (fun acc x => insertSorted le x acc) []

/-- JS `arr.slice(-n)`: the last `n` elements (the whole list when shorter). -/
def sliceLast (n : Nat) (l : List Msg) : List Msg := l.drop (l.length - n)

/-- Model of `MAX_HISTORY_PER_CHAT` of `storageService`. -/
def MAX_HISTORY_PER_CHAT : Nat := 1000

/-- Model of `{ ...message, savedAt: message.savedAt || Date.now() }`. -/
def stampMsg (message : Msg) (now : Nat) : Msg :=
  { message with savedAt := some (jsOrN message.savedAt now) }

/-- Model of `saveMessage` of `storageService`, at the level of one conversation's
log (the store keys logs by `chat_` + lowercased chat id and serializes
access per key through a mutex; `now` models `Date.now()`):
skip if the id is already present, otherwise stamp with local time,
re-sort and keep the most recent `MAX_HISTORY_PER_CHAT` entries. -/
def saveMessage (history : List Msg) (message : Msg) (now : Nat) : List Msg :=
  if history.any (fun m => m.id == message.id) then history
  else sliceLast MAX_HISTORY_PER_CHAT (sortJS msgLe (history ++ [stampMsg message now]))

/-- Model of `saveMessagesBulk` of `storageService`, at the level of one
conversation's log: drop incoming messages whose id is already stored,
stamp each remaining one with `now + i`, merge, sort, truncate. -/
def saveMessagesBulk (history : List Msg) (messages : List Msg) (now : Nat) : List Msg :=
  if messages.length = 0 then history
  else
    let toAdd := messages.filter (fun m => !((history.map (fun h => h.id)).contains m.id))
    if toAdd.length = 0 then history
    else
      let stamped := toAdd.enum.map (fun p => { p.2 with savedAt := some (jsOrN p.2.savedAt (now + p.1)) })
      sliceLast MAX_HISTORY_PER_CHAT (sortJS msgLe (history ++ stamped))

/-- Model of `savePendingMessage` of `storageService` (outbox enqueue): no-op
without a truthy id or when the id is already queued; otherwise append
with a `queuedAt` stamp. -/
def savePendingMessage (outbox : List Msg) (message : Msg) (now : Nat) : List Msg :=
  match message.id with
  | none => outbox
  | some s =>
    if s = "" then outbox
    else if outbox.any (fun m => m.id == message.id) then outbox
    else outbox ++ [{ message with queuedAt := some now }]

/-- Model of `removePendingMessage` of `storageService`: drop every outbox entry
carrying the given id. -/
def removePendingMessage (outbox : List Msg) (messageId : Option String) : List Msg :=
  outbox.filter (fun m => !(m.id == messageId))

/-- A concrete stored message with a one-character id and a future
`savedAt` stamp, for exercising the retention boundary. -/
def c3Entry (i : Nat) : Msg :=
  { id := some ⟨[Char.ofNat (48 + i)]⟩, savedAt := some (i + 10) }

/-- A concrete full conversation log: `MAX_HISTORY_PER_CHAT` distinct
messages whose `savedAt` stamps all lie in the future of the clock. -/
def c3History : List Msg := (List.range 1000).map c3Entry

/-- A concrete incoming message carrying no `savedAt` of its own. -/
def c3Msg : Msg := { id := some "zz" }

/-- Sortedness with respect to the `messageSort` comparator. -/
def SortedM (l : List Msg) : Prop := l.Pairwise (fun a b => msgLe a b = true)

/-- One local-store mutation: a `saveMessage` call or a `saveMessagesBulk`
call, with the `Date.now()` value observed by that call. -/
inductive SaveOp where
  | single (m : Msg) (now : Nat)
  | bulk (ms : List Msg) (now : Nat)

/-- Apply one store mutation to a conversation log. -/
def applyOp (log : List Msg) : SaveOp → List Msg
  | .single m now => saveMessage log m now
  | .bulk ms now => saveMessagesBulk log ms now

/-- The stamped messages an operation contributes when nothing is deduped. -/
def opMsgs : SaveOp → List Msg
  | .single m now => [stampMsg m now]
  | .bulk ms now =>
    ms.enum.map (fun p => { p.2 with savedAt := some (jsOrN p.2.savedAt (now + p.1)) })

/-- All stamped messages contributed by a sequence of store mutations. -/
def opsMsgs (ops : List SaveOp) : List Msg := (ops.map opMsgs).flatten

/-- A concrete batch of 1001 messages with pairwise-distinct ids. -/
def c7Msgs : List Msg :=
  (List.range 1001).map (fun i => { id := some ⟨List.replicate (i + 1) 'a'⟩ })

/-- A single bulk import of the 1001 distinct messages. -/
def c7Ops : List SaveOp := [SaveOp.bulk c7Msgs 5]

/-- Idealized public-key derivation of `nacl.box.keyPair.fromSecretKey`:
an injective map from secret keys to public keys (keys are base64 strings
in the source; their algebraic structure is abstracted away). -/
def boxPublicKeyOf (sk : String) : String := ⟨'k' :: sk.data⟩

/-- Canonically ordered pair of two key strings: the idealized Diffie-Hellman
shared secret of `nacl.box` depends only on the unordered pair
(recipient public key, sender public key). -/
def keyPairCanon (a b : String) : String × String :=
  if strLe a b then (a, b) else (b, a)

/-- Idealized `nacl.box(message, nonce, theirPublicKey, mySecretKey)`. -/
def naclBox (message : String) (nonce theirPublicKey mySecretKey : String) : Cipher :=
  let p := keyPairCanon theirPublicKey (boxPublicKeyOf mySecretKey)
  ⟨p.1, p.2, nonce, message⟩

/-- Idealized `nacl.box.open(ciphertext, nonce, theirPublicKey, mySecretKey)`:
succeeds exactly when the derived shared key pair and the nonce match the
ones the box was sealed with, else returns `null`. -/
def naclBoxOpen (c : Cipher) (nonce theirPublicKey mySecretKey : String) : Option String :=
  let p := keyPairCanon theirPublicKey (boxPublicKeyOf mySecretKey)
  if p.1 = c.k1 ∧ p.2 = c.k2 ∧ nonce = c.cnonce then some c.plain else none

/-- Return shape of `encryptMessage` in `crypto.js`. -/
structure EncResult where
  encrypted : Cipher
  nonce : String
deriving DecidableEq, Repr

/-- Model of `encryptMessage(message, recipientPublicKey, senderSecretKey)` of
`crypto.js`; the per-call random nonce is passed in explicitly. -/
def encryptMessage (message recipientPublicKey senderSecretKey nonce : String) : EncResult :=
  ⟨naclBox message nonce recipientPublicKey senderSecretKey, nonce⟩

/-- Model of `decryptMessage(encryptedMessage, nonce, senderPublicKey,
recipientSecretKey)` of `crypto.js`: any decoding/authentication failure
(including `undefined` inputs, whose decode throws and is caught)
returns `null`, never garbage plaintext. -/
def decryptMessage (encryptedMessage : Option Cipher) (nonce : Option String)
    (senderPublicKey recipientSecretKey : String) : Option String :=
  match encryptedMessage, nonce with
  | some c, some n => naclBoxOpen c n senderPublicKey recipientSecretKey
  | _, _ => none

/-- Presence-registry record of the signaling server:
`address -> { socketId, publicKey, online, lastSeen, username }`. -/
structure SUser where
  socketId : String
  publicKey : Option String
  online : Bool
  lastSeen : Nat
  username : Option String
deriving DecidableEq, Repr

/-- Association-list lookup modelling `Map.prototype.get`. -/
def lookupA {α : Type} (l : List (String × α)) (k : String) : Option α :=
  (l.find? (fun p => p.1 == k)).map (fun p => p.2)

/-- Association-list update modelling `Map.prototype.set` (shadowing). -/
def insertA {α : Type} (k : String) (v : α) (l : List (String × α)) : List (String × α) :=
  (k, v) :: l

/-- Association-list removal modelling `Map.prototype.delete`. -/
def removeA {α : Type} (k : String) (l : List (String × α)) : List (String × α) :=
  l.filter (fun p => !(p.1 == k))

/-- The in-memory stores of the signaling server, plus the per-socket
`socket.address` assignments made by the `register` handler. -/
structure ServerState where
  users : List (String × SUser) := []
  usernames : List (String × String) := []
  offlineMessages : List (String × List Msg) := []
  messageHistory : List (String × List Msg) := []
  sockets : List (String × String) := []
deriving Repr

/-- Observable socket emissions of the server handlers. -/
inductive SEvent where
  | message (socketId : String) (m : Msg)
  | messageStatus (socketId : String) (id : Option String) (status : String)
  | messageSent (socketId : String) (m : Msg)
  | registered (socketId : String) (address : String) (publicKey : Option String)
      (username : Option String)
  | userStatus (fromSocket : String) (address : String) (online : Bool) (lastSeen : Nat)
deriving DecidableEq, Repr

/-- Model of `getConversationId(addr1, addr2)`: lowercase both addresses, sort,
join with an underscore. -/
def getConversationId (addr1 addr2 : String) : String :=
  let a := strLower addr1
  let b := strLower addr2
  if strLe a b then a ++ "_" ++ b else b ++ "_" ++ a

/-- The body of the server's `storeMessage` on one conversation history:
skip duplicates by id, append, drop the oldest entry beyond 100. -/
def storeMessage (history : List Msg) (msg : Msg) : List Msg :=
  if history.any (fun m => m.id == msg.id) then history
  else
    let h := history ++ [msg]
    if h.length > 100 then h.tail else h

/-- The server's `register` handler: upsert presence (retaining a previous
username), bind the socket to the address, deliver and clear buffered
offline messages, acknowledge, and broadcast online status. -/
def handleRegister (st : ServerState) (socketId : String) (address : String)
    (publicKey : Option String) (username : Option String) (now : Nat) :
    ServerState × List SEvent :=
  let normalized := strLower address
  let existingUser := lookupA st.users normalized
  let existingUsername := jsOrOS (existingUser.bind (fun u => u.username)) username
  let users' := insertA normalized
    ⟨socketId, publicKey, true, now, existingUsername⟩ st.users
  let usernames' :=
    if truthyS existingUsername then
      insertA (strLower (jsOrS existingUsername "")) normalized st.usernames
    else st.usernames
  let sockets' := insertA socketId normalized st.sockets
  let pending := (lookupA st.offlineMessages normalized).getD []
  let offline' :=
    if pending.length > 0 then removeA normalized st.offlineMessages
    else st.offlineMessages
  let st' := { st with
    users := users'
    usernames := usernames'
    offlineMessages := offline'
    sockets := sockets' }
  (st',
    pending.map (fun m => SEvent.message socketId m) ++
      [SEvent.registered socketId normalized publicKey existingUsername,
       SEvent.userStatus socketId normalized true now])

/-- The server's `sendMessage` handler.  `socketAddress` is the sending
socket's registered address (`socket.address`); when it is absent the
handler crashes inside `getConversationId` (modelled as `none`).
`genId` models the generated fallback message id and `now` the server
clock.  Returns the new state and the emitted events. -/
def handleSendMessage (st : ServerState) (socketId : String)
    (socketAddress : Option String) (messageData : Msg) (now : Nat)
    (genId : String) : Option (ServerState × List SEvent) :=
  let toAddress := strLower messageData.to_
  let recipient := lookupA st.users toAddress
  let fullMessage := { messageData with
    to_ := toAddress
    from_ := socketAddress
    timestamp := now
    id := some (jsOrS messageData.id genId) }
  match socketAddress with
  | none => none
  | some sa =>
    let convId := getConversationId sa toAddress
    let history := (lookupA st.messageHistory convId).getD []
    let st1 := { st with
      messageHistory := insertA convId (storeMessage history fullMessage) st.messageHistory }
    match recipient with
    | some u =>
      if u.online then
        some (st1, [SEvent.message u.socketId fullMessage,
          SEvent.messageStatus socketId fullMessage.id "delivered",
          SEvent.messageSent socketId fullMessage])
      else
        let pending := (lookupA st1.offlineMessages toAddress).getD []
        some ({ st1 with
            offlineMessages := insertA toAddress (pending ++ [fullMessage]) st1.offlineMessages },
          [SEvent.messageStatus socketId fullMessage.id "stored",
           SEvent.messageSent socketId fullMessage])
    | none =>
      let pending := (lookupA st1.offlineMessages toAddress).getD []
      some ({ st1 with
          offlineMessages := insertA toAddress (pending ++ [fullMessage]) st1.offlineMessages },
        [SEvent.messageStatus socketId fullMessage.id "stored",
         SEvent.messageSent socketId fullMessage])

/-- The server's `disconnect` handler: mark the address offline and
broadcast only when the disconnecting socket is still the address's
currently registered socket. -/
def handleDisconnect (st : ServerState) (socketId : String) (now : Nat) :
    ServerState × List SEvent :=
  match lookupA st.sockets socketId with
  | none => (st, [])
  | some address =>
    match lookupA st.users address with
    | some user =>
      if user.socketId == socketId then
        let offlineUser := { user with online := false, lastSeen := now }
        ({ st with users := insertA address offlineUser st.users },
          [SEvent.userStatus socketId address false now])
      else (st, [])
    | none => (st, [])

/-- The key record returned by `getStoredKeys` in `keyManager.js`
(`{ publicKey, secretKey }`; reading a missing `address` property yields
`undefined`, hence the optional field). -/
structure ClientKeys where
  publicKey : String
  secretKey : String
  address : Option String := none
deriving DecidableEq, Repr

/-- The client's environment: keystore contents, the relay socket's
observable behaviour (`socketService`: `getPublicKey` resolves to the
looked-up user's public key or `null`, `isConnected` reflects the socket),
the WebRTC layer's `sendToPeer` outcome per recipient, the stored
username, the clock, and the generated message id and nonces. -/
structure ClientEnv where
  keys : Option ClientKeys
  pubKeyOf : String → Option String
  connected : Bool
  p2pSend : String → Bool
  username : Option String
  now : Nat
  freshId : String
  nonces : Nat → String

/-- The failures `sendEncryptedMessage` can throw. -/
inductive SendError where
  | noKeys
  | recipientOffline
deriving DecidableEq, Repr

/-- The `err.level` property attached to a thrown send error: the
recipient-offline failure is tagged `'info'` (a soft error for a
non-blocking notice); the missing-keys failure carries no level (hard). -/
def errorLevel : SendError → Option String
  | .noKeys => none
  | .recipientOffline => some "info"

/-- The optional `metadata` argument of `sendEncryptedMessage`. -/
structure SendMetadata where
  groupId : Option String := none
  groupName : Option String := none
  type_ : Option String := none

/-- Result of one `sendEncryptedMessage` call: the returned message or
thrown error, the outbox after the call, and the relay / P2P emissions. -/
structure SendOutcome where
  result : Except SendError Msg
  outbox : List Msg
  relaySends : List (String × Msg)
  p2pSends : List (String × Msg)

/-- Model of `sendEncryptedMessage` of `messageService`: resolve the recipient key
(queueing to the outbox with a soft info-level error when unresolved),
encrypt, try P2P, fall back to the relay, and fall back to the outbox with
a `pending`/`queued` result when the relay is unreachable too. -/
def sendEncryptedMessage (env : ClientEnv) (senderAddress recipientAddress plainText : String)
    (replyTo : Option String) (metadata : SendMetadata) (outbox : List Msg) : SendOutcome :=
  match env.keys with
  | none => ⟨.error .noKeys, outbox, [], []⟩
  | some myKeys =>
    match env.pubKeyOf recipientAddress with
    | none =>
      let outboxMessage : Msg := {
        id := some env.freshId
        from_ := some senderAddress
        to_ := recipientAddress
        content := some plainText
        senderPublicKey := some myKeys.publicKey
        senderUsername := env.username
        replyTo := replyTo
        timestamp := env.now
        status := some "pending"
        transport := some "queued"
        groupId := metadata.groupId
        groupName := metadata.groupName
        type_ := some (jsOrS metadata.type_ "text") }
      ⟨.error .recipientOffline, savePendingMessage outbox outboxMessage env.now, [], []⟩
    | some recipientPubKey =>
      let encryptedData := encryptMessage plainText recipientPubKey myKeys.secretKey (env.nonces 0)
      let payload : Msg := {
        id := some env.freshId
        encrypted := some encryptedData.encrypted
        nonce := some encryptedData.nonce
        senderPublicKey := some myKeys.publicKey
        senderUsername := env.username
        replyTo := replyTo
        timestamp := env.now
        groupId := metadata.groupId
        groupName := metadata.groupName
        from_ := some senderAddress
        type_ := some (jsOrS metadata.type_ "text") }
      let returned (status transport : String) : Msg := {
        id := some env.freshId
        from_ := some senderAddress
        to_ := recipientAddress
        content := some plainText
        encrypted := some encryptedData.encrypted
        nonce := some encryptedData.nonce
        senderPublicKey := some myKeys.publicKey
        senderUsername := env.username
        replyTo := replyTo
        timestamp := env.now
        status := some status
        transport := some transport
        groupId := metadata.groupId
        groupName := metadata.groupName
        type_ := some (jsOrS metadata.type_ "text") }
      if env.p2pSend recipientAddress then
        ⟨.ok (returned "sent" "p2p"), outbox, [],
          [(recipientAddress, { payload with to_ := recipientAddress })]⟩
      else if env.connected then
        ⟨.ok (returned "sent" "relay"), outbox, [(recipientAddress, payload)], []⟩
      else
        let outboxMessage := { payload with
          to_ := recipientAddress
          content := some plainText
          status := some "pending" }
        ⟨.ok (returned "pending" "queued"),
          savePendingMessage outbox outboxMessage env.now, [], []⟩

/-- Model of `decryptReceivedMessage` of `messageService`: status-only updates pass
through; when the caller is the message's sender, the counterparty key is
the recipient's public key fetched from the relay, otherwise the embedded
`senderPublicKey`; an unresolvable key or failed decryption yields a
marker instead of dropping the message.  The `.error` case models the
thrown `'No encryption keys found.'`. -/
def decryptReceivedMessage (env : ClientEnv) (encryptedMessage : Msg)
    (cachedKeys : Option ClientKeys) (myAddress : Option String) : Except Unit Msg :=
  let myKeysOpt := match cachedKeys with
    | some k => some k
    | none => env.keys
  match myKeysOpt with
  | none => .error ()
  | some myKeys =>
    if encryptedMessage.encrypted.isNone ∧ truthyS encryptedMessage.status then
      .ok { encryptedMessage with decryptionFailed := some false }
    else
      let walletAddress := jsOrOS myAddress myKeys.address
      let iAmSender := truthyS walletAddress &&
        (match encryptedMessage.from_ with
          | some f => strLower f == strLower (jsOrS walletAddress "")
          | none => false)
      let otherPartyPublicKey :=
        if iAmSender then env.pubKeyOf encryptedMessage.to_
        else encryptedMessage.senderPublicKey
      if truthyS otherPartyPublicKey = false then
        .ok { encryptedMessage with
          content := some "[Unable to decrypt: key not found]"
          decryptionFailed := some true }
      else
        let decryptedContent := decryptMessage encryptedMessage.encrypted
          encryptedMessage.nonce (jsOrS otherPartyPublicKey "") myKeys.secretKey
        .ok { encryptedMessage with
          content := decryptedContent
          decryptionFailed := some false
          type_ := some (jsOrS encryptedMessage.type_ "text") }

/-- The relay payload rebuilt for one outbox entry inside
`flushPendingMessages`. -/
def flushRelayPayload (msg : Msg) (enc : Option Cipher) (non : Option String)
    (myKeys : ClientKeys) : Msg :=
  { id := msg.id
    encrypted := enc
    nonce := non
    senderPublicKey := jsOrOS msg.senderPublicKey (some myKeys.publicKey)
    senderUsername := msg.senderUsername
    replyTo := msg.replyTo
    timestamp := msg.timestamp
    groupId := msg.groupId
    groupName := msg.groupName
    from_ := msg.from_
    type_ := some (jsOrS msg.type_ "text") }

/-- Summary returned by `flushPendingMessages`, together with the final
outbox contents and the relay emissions. -/
structure FlushResult where
  sent : Nat
  failed : Nat
  outbox : List Msg
  relaySends : List (String × Msg)
deriving Repr

/-- The per-entry loop of `flushPendingMessages` over the snapshot of
pending messages: skip (retain, count failed) when the socket is down or a
still-unknown recipient key blocks encryption; otherwise encrypt if
needed, emit to the relay, and remove the entry from the outbox. -/
def flushGo (env : ClientEnv) (myKeys : ClientKeys) :
    List Msg → List Msg → Nat → Nat → List (String × Msg) → FlushResult
  | [], outbox, s, f, sends => ⟨s, f, outbox, sends⟩
  | msg :: rest, outbox, s, f, sends =>
    if env.connected = false then
      flushGo env myKeys rest outbox s (f + 1) sends
    else if msg.encrypted.isNone && truthyS msg.content then
      match env.pubKeyOf msg.to_ with
      | none => flushGo env myKeys rest outbox s (f + 1) sends
      | some recipientPubKey =>
        let ed := encryptMessage (jsOrS msg.content "") recipientPubKey
          myKeys.secretKey (env.nonces (s + f))
        flushGo env myKeys rest (removePendingMessage outbox msg.id) (s + 1) f
          (sends ++ [(msg.to_, flushRelayPayload msg (some ed.encrypted) (some ed.nonce) myKeys)])
    else
      flushGo env myKeys rest (removePendingMessage outbox msg.id) (s + 1) f
        (sends ++ [(msg.to_, flushRelayPayload msg msg.encrypted msg.nonce myKeys)])

/-- Model of `flushPendingMessages` of `messageService`: returns `{sent: 0, failed: 0}`
on an empty outbox, fails all entries when the keystore is inaccessible,
and otherwise runs the per-entry loop over the outbox snapshot. -/
def flushPendingMessages (env : ClientEnv) (outbox : List Msg) : FlushResult :=
  if outbox.length = 0 then ⟨0, 0, outbox, []⟩
  else
    match env.keys with
    | none => ⟨0, outbox.length, outbox, []⟩
    | some myKeys => flushGo env myKeys outbox outbox 0 0 []

/-- A concrete client environment whose relay cannot resolve any key. -/
def c5EnvA : ClientEnv :=
  { keys := some ⟨"pk0", "sk0", none⟩, pubKeyOf := fun _ => none, connected := false,
    p2pSend := fun _ => false, username := none, now := 7, freshId := "f1",
    nonces := fun _ => "non" }

/-- A concrete client environment with a resolvable key but no P2P channel
and a disconnected relay socket. -/
def c5EnvB : ClientEnv :=
  { keys := some ⟨"pk0", "sk0", none⟩, pubKeyOf := fun _ => some "rk",
    connected := false, p2pSend := fun _ => false, username := none, now := 7,
    freshId := "f2", nonces := fun _ => "non" }

/-- Whether one outbox entry succeeds in the flush loop: the socket must be
connected and, when the entry still needs encryption (no ciphertext but
plaintext content), the recipient key must resolve. -/
def flushEntryOk (env : ClientEnv) (m : Msg) : Bool :=
  env.connected && (!(m.encrypted.isNone && truthyS m.content) || (env.pubKeyOf m.to_).isSome)

/-- A concrete connected environment that resolves every key. -/
def c6EnvGood : ClientEnv :=
  { keys := some ⟨"pkg", "skg", none⟩, pubKeyOf := fun _ => some "rk", connected := true,
    p2pSend := fun _ => false, username := none, now := 3, freshId := "f6",
    nonces := fun _ => "non6" }

/-- A concrete connected environment that resolves no key. -/
def c6EnvBad : ClientEnv :=
  { keys := some ⟨"pkg", "skg", none⟩, pubKeyOf := fun _ => none, connected := true,
    p2pSend := fun _ => false, username := none, now := 3, freshId := "f6",
    nonces := fun _ => "non6" }

/-- A concrete two-entry outbox: one entry already encrypted, one queued
before encryption (plaintext only). -/
def c6Outbox : List Msg :=
  [{ id := some "m1", to_ := "0xb", encrypted := some ⟨"k1", "k2", "nn", "pp"⟩,
     nonce := some "nn" },
   { id := some "m2", to_ := "0xc", content := some "hey" }]

/-- A concrete environment that resolves the recipient's key for C9. -/
def c9Env : ClientEnv :=
  { keys := some ⟨boxPublicKeyOf "a", "a", none⟩,
    pubKeyOf := fun x => if x = "0xb" then some (boxPublicKeyOf "b") else none,
    connected := true, p2pSend := fun _ => false, username := none, now := 1,
    freshId := "f9", nonces := fun _ => "n9" }

theorem codeLe_cons_iff {x y : Char} {xs ys : List Char} :
    codeLe (x :: xs) (y :: ys) = true ↔
      x.toNat < y.toNat ∨ (x.toNat = y.toNat ∧ codeLe xs ys = true) := by
  show (if x.toNat < y.toNat then true
        else if y.toNat < x.toNat then false else codeLe xs ys) = true ↔ _
  rcases Nat.lt_trichotomy x.toNat y.toNat with h | h | h
  · simp [h]
  · simp [h, Nat.lt_irrefl]
  · have h1 : ¬ x.toNat < y.toNat := Nat.lt_asymm h
    rw [if_neg h1, if_pos h]
    constructor
    · intro hc; cases hc
    · rintro (hlt | ⟨heq, _⟩)
      · exact absurd hlt h1
      · exfalso
        rw [heq] at h
        exact Nat.lt_irrefl _ h

theorem codeLe_total : ∀ a b : List Char, codeLe a b = true ∨ codeLe b a = true := by
  intro a
  induction a with
  | nil => intro b; left; rfl
  | cons x xs ih =>
    intro b
    cases b with
    | nil => right; rfl
    | cons y ys =>
      rw [codeLe_cons_iff, codeLe_cons_iff]
      rcases Nat.lt_trichotomy x.toNat y.toNat with h | h | h
      · exact Or.inl (Or.inl h)
      · rcases ih ys with h2 | h2
        · exact Or.inl (Or.inr ⟨h, h2⟩)
        · exact Or.inr (Or.inr ⟨h.symm, h2⟩)
      · exact Or.inr (Or.inl h)

theorem codeLe_antisymm : ∀ a b : List Char,
    codeLe a b = true → codeLe b a = true → a = b := by
  intro a
  induction a with
  | nil =>
    intro b _ hba
    cases b with
    | nil => rfl
    | cons y ys => simp [codeLe] at hba
  | cons x xs ih =>
    intro b hab hba
    cases b with
    | nil => simp [codeLe] at hab
    | cons y ys =>
      rw [codeLe_cons_iff] at hab hba
      have hx : x = y := by
        have hn : x.toNat = y.toNat := by omega
        exact Char.ext (UInt32.ext hn)
      have hxs : codeLe xs ys = true := by
        rcases hab with h | ⟨_, h⟩
        · omega
        · exact h
      have hys : codeLe ys xs = true := by
        rcases hba with h | ⟨_, h⟩
        · omega
        · exact h
      rw [hx, ih ys hxs hys]

theorem codeLe_trans : ∀ a b c : List Char,
    codeLe a b = true → codeLe b c = true → codeLe a c = true := by
  intro a
  induction a with
  | nil => intro b c _ _; rfl
  | cons x xs ih =>
    intro b c hab hbc
    cases b with
    | nil => simp [codeLe] at hab
    | cons y ys =>
      cases c with
      | nil => simp [codeLe] at hbc
      | cons z zs =>
        rw [codeLe_cons_iff] at hab hbc ⊢
        rcases hab with h1 | ⟨h1, h1'⟩
        · rcases hbc with h2 | ⟨h2, _⟩
          · exact Or.inl (Nat.lt_trans h1 h2)
          · exact Or.inl (by omega)
        · rcases hbc with h2 | ⟨h2, h2'⟩
          · exact Or.inl (by omega)
          · exact Or.inr ⟨by omega, ih ys zs h1' h2'⟩

theorem strLe_total (a b : String) : strLe a b = true ∨ strLe b a = true :=
  codeLe_total a.data b.data

theorem strLe_antisymm {a b : String} (h1 : strLe a b = true)
    (h2 : strLe b a = true) : a = b := by
  cases a; cases b
  exact congrArg String.mk (codeLe_antisymm _ _ h1 h2)

theorem strLe_trans {a b c : String} (h1 : strLe a b = true)
    (h2 : strLe b c = true) : strLe a c = true :=
  codeLe_trans a.data b.data c.data h1 h2

theorem msgLe_total (a b : Msg) : msgLe a b = true ∨ msgLe b a = true := by
  unfold msgLe
  rcases Nat.lt_trichotomy (sortTime a) (sortTime b) with h | h | h
  · left; simp [h]
  · rcases strLe_total (idStr a) (idStr b) with h2 | h2
    · left; simp [h, h2]
    · right; simp [h, h2]
  · right; simp [h]

theorem msgLe_trans {a b c : Msg} (h1 : msgLe a b = true) (h2 : msgLe b c = true) :
    msgLe a c = true := by
  unfold msgLe at h1 h2 ⊢
  simp only [Bool.or_eq_true, Bool.and_eq_true, decide_eq_true_eq, beq_iff_eq] at h1 h2 ⊢
  rcases h1 with h1 | ⟨h1, h1'⟩
  · rcases h2 with h2 | ⟨h2, _⟩
    · exact Or.inl (Nat.lt_trans h1 h2)
    · exact Or.inl (by omega)
  · rcases h2 with h2 | ⟨h2, h2'⟩
    · exact Or.inl (by omega)
    · exact Or.inr ⟨by omega, strLe_trans h1' h2'⟩

theorem msgLe_tie {a b : Msg} (h1 : msgLe a b = true) (h2 : msgLe b a = true) :
    idStr a = idStr b := by
  unfold msgLe at h1 h2
  simp only [Bool.or_eq_true, Bool.and_eq_true, decide_eq_true_eq, beq_iff_eq] at h1 h2
  rcases h1 with h1 | ⟨_, h1'⟩
  · rcases h2 with h2 | ⟨h2, _⟩
    · omega
    · omega
  · rcases h2 with h2 | ⟨h2, h2'⟩
    · omega
    · exact strLe_antisymm h1' h2'

theorem insertSorted_perm (x : Msg) : ∀ l : List Msg,
    (insertSorted msgLe x l).Perm (x :: l) := by
  intro l
  induction l with
  | nil => simp [insertSorted]
  | cons y ys ih =>
    by_cases h : msgLe y x = true
    · simp only [insertSorted, if_pos h]
      exact ((ih.cons y).trans (List.Perm.swap x y ys))
    · simp only [insertSorted, if_neg h]
      exact List.Perm.refl _

theorem mem_insertSorted {x a : Msg} {l : List Msg} :
    a ∈ insertSorted msgLe x l ↔ a = x ∨ a ∈ l := by
  rw [(insertSorted_perm x l).mem_iff]
  simp

theorem length_insertSorted (x : Msg) (l : List Msg) :
    (insertSorted msgLe x l).length = l.length + 1 :=
  (insertSorted_perm x l).length_eq

theorem insertSorted_sorted {x : Msg} {l : List Msg} (hs : SortedM l) :
    SortedM (insertSorted msgLe x l) := by
  induction l with
  | nil => simp [insertSorted, SortedM]
  | cons y ys ih =>
    rcases List.pairwise_cons.mp hs with ⟨hy, hys⟩
    by_cases h : msgLe y x = true
    · simp only [insertSorted, if_pos h]
      refine List.pairwise_cons.mpr ⟨?_, ih hys⟩
      intro b hb
      rcases mem_insertSorted.mp hb with rfl | hb
      · exact h
      · exact hy b hb
    · simp only [insertSorted, if_neg h]
      refine List.pairwise_cons.mpr ⟨?_, hs⟩
      intro b hb
      rcases List.mem_cons.mp hb with rfl | hb
      · rcases msgLe_total x b with h2 | h2
        · exact h2
        · exact absurd h2 (by simpa using h)
      · have hxy : msgLe x y = true := by
          rcases msgLe_total x y with h2 | h2
          · exact h2
          · exact absurd h2 (by simpa using h)
        exact msgLe_trans hxy (hy b hb)

theorem insertSorted_of_forall_le {x : Msg} {l : List Msg}
    (h : ∀ y ∈ l, msgLe y x = true) : insertSorted msgLe x l = l ++ [x] := by
  induction l with
  | nil => rfl
  | cons y ys ih =>
    have hy : msgLe y x = true := h y (List.mem_cons_self _ _)
    simp only [insertSorted, if_pos hy, List.cons_append]
    rw [ih (fun z hz => h z (List.mem_cons_of_mem _ hz))]

theorem insertSorted_of_forall_not_le {x : Msg} {l : List Msg}
    (h : ∀ y ∈ l, msgLe y x = false) : insertSorted msgLe x l = x :: l := by
  cases l with
  | nil => rfl
  | cons y ys =>
    have hy : msgLe y x = false := h y (List.mem_cons_self _ _)
    simp only [insertSorted, hy]
    simp

theorem sortJS_append_singleton (l : List Msg) (x : Msg) :
    sortJS msgLe (l ++ [x]) = insertSorted msgLe x (sortJS msgLe l) := by
  unfold sortJS
  rw [List.foldl_append]
  rfl

theorem sortJS_perm (l : List Msg) : (sortJS msgLe l).Perm l := by
  induction l using List.reverseRecOn with
  | nil => simp [sortJS]
  | append_singleton l x ih =>
    rw [sortJS_append_singleton]
    exact (insertSorted_perm x (sortJS msgLe l)).trans
      ((ih.cons x).trans (List.perm_append_singleton x l).symm)

theorem mem_sortJS {a : Msg} {l : List Msg} : a ∈ sortJS msgLe l ↔ a ∈ l :=
  (sortJS_perm l).mem_iff

theorem length_sortJS (l : List Msg) : (sortJS msgLe l).length = l.length :=
  (sortJS_perm l).length_eq

theorem sortJS_sorted (l : List Msg) : SortedM (sortJS msgLe l) := by
  induction l using List.reverseRecOn with
  | nil => simp [sortJS, SortedM]
  | append_singleton l x ih =>
    rw [sortJS_append_singleton]
    exact insertSorted_sorted ih

theorem sortJS_eq_self {l : List Msg} (hs : SortedM l) : sortJS msgLe l = l := by
  induction l using List.reverseRecOn with
  | nil => rfl
  | append_singleton l x ih =>
    rw [sortJS_append_singleton]
    have hl : SortedM l := (List.pairwise_append.mp hs).1
    rw [ih hl]
    exact insertSorted_of_forall_le (fun y hy =>
      (List.pairwise_append.mp hs).2.2 y hy x (List.mem_singleton_self x))

theorem sliceLast_of_length_le {n : Nat} {l : List Msg} (h : l.length ≤ n) :
    sliceLast n l = l := by
  unfold sliceLast
  rw [Nat.sub_eq_zero_of_le h, List.drop_zero]

theorem length_sliceLast (n : Nat) (l : List Msg) :
    (sliceLast n l).length = min n l.length := by
  unfold sliceLast
  rw [List.length_drop]
  omega

theorem sliceLast_cons_of_le {n : Nat} {x : Msg} {l : List Msg} (h : n ≤ l.length) :
    sliceLast n (x :: l) = sliceLast n l := by
  unfold sliceLast
  have h1 : (x :: l).length - n = (l.length - n) + 1 := by
    simp only [List.length_cons]
    omega
  rw [h1, List.drop_succ_cons]

theorem mem_sliceLast {n : Nat} {a : Msg} {l : List Msg} (h : a ∈ sliceLast n l) :
    a ∈ l :=
  List.drop_subset _ _ h

theorem sliceLast_sorted {n : Nat} {l : List Msg} (hs : SortedM l) :
    SortedM (sliceLast n l) :=
  hs.sublist (List.drop_sublist _ _)

theorem sliceLast_sliceLast (n : Nat) (l : List Msg) :
    sliceLast n (sliceLast n l) = sliceLast n l :=
  sliceLast_of_length_le (by rw [length_sliceLast]; omega)

/-- Evicting down to the last `C` entries commutes with insertion: inserting
into the truncated sorted log and truncating again gives the same result as
inserting into the full sorted log and truncating, provided the inserted
element does not tie with any log entry under the comparator. -/
theorem sliceLast_insertSorted (C : Nat) (x : Msg) :
    ∀ T : List Msg, SortedM T →
    (∀ y ∈ T, ¬(msgLe y x = true ∧ msgLe x y = true)) →
    sliceLast C (insertSorted msgLe x (sliceLast C T)) =
      sliceLast C (insertSorted msgLe x T) := by
  intro T
  induction T with
  | nil =>
    intro _ _
    have hnil : sliceLast C ([] : List Msg) = [] := sliceLast_of_length_le (by simp)
    rw [hnil]
  | cons t T' ih =>
    intro hs hne
    by_cases hlen : (t :: T').length ≤ C
    · rw [sliceLast_of_length_le hlen]
    · have hT' : C ≤ T'.length := by
        simp only [List.length_cons] at hlen
        omega
      have hslice : sliceLast C (t :: T') = sliceLast C T' := sliceLast_cons_of_le hT'
      rcases List.pairwise_cons.mp hs with ⟨ht, hsT'⟩
      by_cases hle : msgLe t x = true
      · have h1 : insertSorted msgLe x (t :: T') = t :: insertSorted msgLe x T' := by
          simp [insertSorted, hle]
        rw [hslice, h1]
        have h2 : sliceLast C (t :: insertSorted msgLe x T') =
            sliceLast C (insertSorted msgLe x T') :=
          sliceLast_cons_of_le (by rw [length_insertSorted]; omega)
        rw [h2]
        exact ih hsT' (fun y hy => hne y (List.mem_cons_of_mem t hy))
      · have hxt : msgLe x t = true := by
          rcases msgLe_total x t with h2 | h2
          · exact h2
          · exact absurd h2 (by simpa using hle)
        have hxall : ∀ y ∈ T', msgLe y x = false := by
          intro y hy
          by_contra hcon
          have hyx : msgLe y x = true := by
            cases hcase : msgLe y x
            · exact absurd hcase hcon
            · rfl
          exact hne y (List.mem_cons_of_mem t hy) ⟨hyx, msgLe_trans hxt (ht y hy)⟩
        have h1 : insertSorted msgLe x (t :: T') = x :: t :: T' := by
          simp [insertSorted, hle]
        rw [hslice, h1]
        have hS : ∀ y ∈ sliceLast C T', msgLe y x = false :=
          fun y hy => hxall y (mem_sliceLast hy)
        rw [insertSorted_of_forall_not_le hS]
        have hlenS : (sliceLast C T').length = C := by
          rw [length_sliceLast]
          omega
        rw [sliceLast_cons_of_le (le_of_eq hlenS.symm), sliceLast_sliceLast,
          sliceLast_cons_of_le (by simp only [List.length_cons]; omega), hslice]

/-- Two sorted lists that are permutations of one another and whose members
never tie (except with themselves) are equal. -/
theorem sortedPermEq : ∀ {l₁ l₂ : List Msg}, l₁.Perm l₂ → SortedM l₁ → SortedM l₂ →
    (∀ a ∈ l₁, ∀ b ∈ l₁, msgLe a b = true → msgLe b a = true → a = b) → l₁ = l₂ := by
  intro l₁
  induction l₁ with
  | nil =>
    intro l₂ hp _ _ _
    exact (hp.symm.eq_nil).symm
  | cons x xs ih =>
    intro l₂ hp hs1 hs2 hanti
    cases l₂ with
    | nil => exact absurd hp.eq_nil (by simp)
    | cons y ys =>
      have hxy : x = y := by
        by_contra hne
        have hxmem : x ∈ y :: ys := hp.mem_iff.mp (List.mem_cons_self _ _)
        have hymem : y ∈ x :: xs := hp.mem_iff.mpr (List.mem_cons_self _ _)
        have hx2 : x ∈ ys := by
          rcases List.mem_cons.mp hxmem with h | h
          · exact absurd h hne
          · exact h
        have hy2 : y ∈ xs := by
          rcases List.mem_cons.mp hymem with h | h
          · exact absurd h.symm hne
          · exact h
        have h1 : msgLe x y = true := (List.pairwise_cons.mp hs1).1 y hy2
        have h2 : msgLe y x = true := (List.pairwise_cons.mp hs2).1 x hx2
        exact hne (hanti x (List.mem_cons_self _ _) y (List.mem_cons_of_mem _ hy2) h1 h2)
      subst hxy
      have hp' : xs.Perm ys := hp.cons_inv
      rw [ih hp' (List.pairwise_cons.mp hs1).2 (List.pairwise_cons.mp hs2).2
        (fun a ha b hb hab hba =>
          hanti a (List.mem_cons_of_mem _ ha) b (List.mem_cons_of_mem _ hb) hab hba)]

theorem sep_of_nodup_append {P Q : List Msg} (hnd : ((P ++ Q).map idStr).Nodup) :
    ∀ y ∈ P, ∀ x ∈ Q, idStr y ≠ idStr x := by
  rw [List.map_append] at hnd
  intro y hy x hx hcon
  exact (List.nodup_append.mp hnd).2.2 (List.mem_map_of_mem idStr hy)
    (hcon ▸ List.mem_map_of_mem idStr hx)

/-- Merging a batch into an already-truncated sorted log and truncating again
agrees with sorting and truncating the full message sequence, provided ids
(and hence comparator ties) never repeat. -/
theorem sliceLast_sortJS_merge (C : Nat) (P : List Msg) :
    ∀ Bs : List Msg, ((P ++ Bs).map idStr).Nodup →
    sliceLast C (sortJS msgLe (sliceLast C (sortJS msgLe P) ++ Bs)) =
      sliceLast C (sortJS msgLe (P ++ Bs)) := by
  intro Bs
  induction Bs using List.reverseRecOn with
  | nil =>
    intro _
    rw [List.append_nil, List.append_nil,
      sortJS_eq_self (sliceLast_sorted (sortJS_sorted P)), sliceLast_sliceLast]
  | append_singleton Bs x ih =>
    intro hnd
    have hassoc : P ++ (Bs ++ [x]) = (P ++ Bs) ++ [x] := (List.append_assoc _ _ _).symm
    have hnd2 : (((P ++ Bs) ++ [x]).map idStr).Nodup := by rw [← hassoc]; exact hnd
    have hnd' : ((P ++ Bs).map idStr).Nodup := by
      rw [List.map_append] at hnd2
      exact (List.nodup_append.mp hnd2).1
    have hsep : ∀ y ∈ P ++ Bs, idStr y ≠ idStr x := by
      intro y hy
      exact sep_of_nodup_append hnd2 y hy x (List.mem_singleton_self x)
    have hne1 : ∀ y ∈ sortJS msgLe (sliceLast C (sortJS msgLe P) ++ Bs),
        ¬(msgLe y x = true ∧ msgLe x y = true) := by
      rintro y hy ⟨h1, h2⟩
      have hy' : y ∈ P ++ Bs := by
        rcases List.mem_append.mp (mem_sortJS.mp hy) with h | h
        · exact List.mem_append.mpr (Or.inl (mem_sortJS.mp (mem_sliceLast h)))
        · exact List.mem_append.mpr (Or.inr h)
      exact hsep y hy' (msgLe_tie h1 h2)
    have hne2 : ∀ y ∈ sortJS msgLe (P ++ Bs),
        ¬(msgLe y x = true ∧ msgLe x y = true) := by
      rintro y hy ⟨h1, h2⟩
      exact hsep y (mem_sortJS.mp hy) (msgLe_tie h1 h2)
    have e1 : sliceLast C (sortJS msgLe (sliceLast C (sortJS msgLe P) ++ (Bs ++ [x])))
        = sliceLast C (insertSorted msgLe x
            (sortJS msgLe (sliceLast C (sortJS msgLe P) ++ Bs))) := by
      rw [← List.append_assoc, sortJS_append_singleton]
    rw [e1, ← sliceLast_insertSorted C x _ (sortJS_sorted _) hne1, ih hnd',
      sliceLast_insertSorted C x _ (sortJS_sorted _) hne2,
      ← sortJS_append_singleton, List.append_assoc]

theorem idStr_stamp (m : Msg) (now : Nat) : idStr (stampMsg m now) = idStr m := rfl

theorem opsMsgs_append (ops : List SaveOp) (op : SaveOp) :
    opsMsgs (ops ++ [op]) = opsMsgs ops ++ opMsgs op := by
  unfold opsMsgs
  rw [List.map_append, List.flatten_append]
  simp

theorem idStr_opMsgs_bulk (ms : List Msg) (now : Nat) :
    (opMsgs (.bulk ms now)).map idStr = ms.map idStr := by
  unfold opMsgs
  rw [List.map_map]
  have h1 : (idStr ∘ fun p : Nat × Msg =>
      { p.2 with savedAt := some (jsOrN p.2.savedAt (now + p.1)) }) =
      (fun p : Nat × Msg => idStr p.2) := by
    funext p
    rfl
  rw [h1]
  have h2 : (fun p : Nat × Msg => idStr p.2) = idStr ∘ Prod.snd := rfl
  rw [h2, ← List.map_map, List.enum_map_snd]

/-- Master characterization of the local conversation store: as long as no
message id (hence no comparator tie) repeats across a sequence of
`saveMessage` / `saveMessagesBulk` calls, the resulting log is exactly the
sorted list of all stamped messages truncated to the most recent
`MAX_HISTORY_PER_CHAT` entries. -/
theorem foldSave_eq : ∀ ops : List SaveOp, ((opsMsgs ops).map idStr).Nodup →
    ops.foldl applyOp [] =
      sliceLast MAX_HISTORY_PER_CHAT (sortJS msgLe (opsMsgs ops)) := by
  intro ops
  induction ops using List.reverseRecOn with
  | nil =>
    intro _
    have : sliceLast MAX_HISTORY_PER_CHAT (sortJS msgLe (opsMsgs [])) = [] := by
      apply sliceLast_of_length_le
      simp [opsMsgs, sortJS]
    rw [this]
    rfl
  | append_singleton ops op ih =>
    intro hnd
    rw [List.foldl_append]
    have hnda : ((opsMsgs ops ++ opMsgs op).map idStr).Nodup := by
      rw [← opsMsgs_append]; exact hnd
    have hnd' : ((opsMsgs ops).map idStr).Nodup := by
      have h := hnda
      rw [List.map_append] at h
      exact (List.nodup_append.mp h).1
    have hL := ih hnd'
    set C := MAX_HISTORY_PER_CHAT with hC
    set L := sliceLast C (sortJS msgLe (opsMsgs ops)) with hLdef
    have hmemL : ∀ y ∈ L, y ∈ opsMsgs ops := by
      intro y hy
      exact mem_sortJS.mp (mem_sliceLast hy)
    simp only [List.foldl_cons, List.foldl_nil]
    rw [hL, opsMsgs_append]
    cases op with
    | single m now =>
      have hdedup : (L.any fun mm => mm.id == m.id) = false := by
        by_contra hcon
        have hany : (L.any fun mm => mm.id == m.id) = true := by
          cases hcase : L.any fun mm => mm.id == m.id
          · exact absurd hcase hcon
          · rfl
        rcases List.any_eq_true.mp hany with ⟨y, hy, hbeq⟩
        have hid : y.id = m.id := by
          exact beq_iff_eq.mp hbeq
        have hsep := sep_of_nodup_append hnda y (hmemL y hy)
          (stampMsg m now) (by simp [opMsgs])
        apply hsep
        show jsOrS y.id "" = idStr (stampMsg m now)
        rw [hid, idStr_stamp]
        rfl
      show saveMessage L m now = _
      unfold saveMessage
      rw [hdedup]
      simp only [Bool.false_eq_true, if_false]
      exact sliceLast_sortJS_merge C (opsMsgs ops) [stampMsg m now] hnda
    | bulk ms now =>
      show saveMessagesBulk L ms now = _
      unfold saveMessagesBulk
      by_cases hms : ms.length = 0
      · have hms0 : ms = [] := List.length_eq_zero.mp hms
        subst hms0
        rw [if_pos hms]
        have hb : opMsgs (SaveOp.bulk [] now) = [] := rfl
        rw [hb, List.append_nil]
      · rw [if_neg hms]
        have hfresh : ∀ m ∈ ms, (!((L.map (fun h => h.id)).contains m.id)) = true := by
          intro m hm
          rw [Bool.not_eq_true']
          by_contra hcon
          have hcont : ((L.map (fun h => h.id)).contains m.id) = true := by
            cases hcase : (L.map (fun h => h.id)).contains m.id
            · exact absurd hcase hcon
            · rfl
          have hmem : m.id ∈ L.map (fun h => h.id) := List.elem_iff.mp hcont
          rcases List.mem_map.mp hmem with ⟨y, hy, hid⟩
          have hmidm : idStr m ∈ (opMsgs (.bulk ms now)).map idStr := by
            rw [idStr_opMsgs_bulk]
            exact List.mem_map_of_mem idStr hm
          rcases List.mem_map.mp hmidm with ⟨x, hx, hidx⟩
          exact sep_of_nodup_append hnda y (hmemL y hy) x hx
            (by rw [hidx]; show jsOrS y.id "" = jsOrS m.id ""; rw [hid])
        have hfilter : ms.filter (fun m => !((L.map (fun h => h.id)).contains m.id)) = ms :=
          List.filter_eq_self.mpr hfresh
        rw [hfilter, if_neg hms]
        exact sliceLast_sortJS_merge C (opsMsgs ops) (opMsgs (.bulk ms now))
          (by rw [← opsMsgs_append]; exact hnd)

theorem boxPublicKeyOf_inj {a b : String} (h : boxPublicKeyOf a = boxPublicKeyOf b) :
    a = b := by
  cases a with
  | mk da =>
    cases b with
    | mk db =>
      unfold boxPublicKeyOf at h
      have hd : 'k' :: da = 'k' :: db := congrArg String.data h
      simp only [List.cons.injEq, true_and] at hd
      rw [hd]

theorem keyPairCanon_comm (a b : String) : keyPairCanon a b = keyPairCanon b a := by
  unfold keyPairCanon
  rcases strLe_total a b with h | h
  · by_cases h2 : strLe b a = true
    · rw [if_pos h, if_pos h2, strLe_antisymm h h2]
    · rw [if_pos h, if_neg h2]
  · by_cases h2 : strLe a b = true
    · rw [if_pos h2, if_pos h, strLe_antisymm h2 h]
    · rw [if_neg h2, if_pos h]

theorem keyPairCanon_eq_iff {x y a b : String}
    (h : keyPairCanon x y = keyPairCanon a b) :
    (x = a ∧ y = b) ∨ (x = b ∧ y = a) := by
  unfold keyPairCanon at h
  by_cases h1 : strLe x y = true
  · by_cases h2 : strLe a b = true
    · rw [if_pos h1, if_pos h2, Prod.mk.injEq] at h
      exact Or.inl h
    · rw [if_pos h1, if_neg h2, Prod.mk.injEq] at h
      exact Or.inr h
  · by_cases h2 : strLe a b = true
    · rw [if_neg h1, if_pos h2, Prod.mk.injEq] at h
      exact Or.inr ⟨h.2, h.1⟩
    · rw [if_neg h1, if_neg h2, Prod.mk.injEq] at h
      exact Or.inl ⟨h.2, h.1⟩

/-- C2: round trip — for every plaintext `m`, valid key pairs
`A = (boxPublicKeyOf skA, skA)` and `B = (boxPublicKeyOf skB, skB)` and
nonce, `decryptMessage` of `encryptMessage m pkB skA` with `(pkA, skB)`
returns `m`; and decrypting the same ciphertext with a mismatched
counterparty public key, or with a mismatched secret key, returns the
failure marker `none`, never a plaintext. -/
theorem crypto_roundtrip_and_auth_fail (m skA skB n pk' sk' : String)
    (hpk : pk' ≠ boxPublicKeyOf skA) (hsk : sk' ≠ skB) :
    (decryptMessage (some (encryptMessage m (boxPublicKeyOf skB) skA n).encrypted)
        (some (encryptMessage m (boxPublicKeyOf skB) skA n).nonce)
        (boxPublicKeyOf skA) skB = some m) ∧
    (decryptMessage (some (encryptMessage m (boxPublicKeyOf skB) skA n).encrypted)
        (some (encryptMessage m (boxPublicKeyOf skB) skA n).nonce)
        pk' skB = none) ∧
    (decryptMessage (some (encryptMessage m (boxPublicKeyOf skB) skA n).encrypted)
        (some (encryptMessage m (boxPublicKeyOf skB) skA n).nonce)
        (boxPublicKeyOf skA) sk' = none) := by
  unfold decryptMessage encryptMessage naclBox naclBoxOpen
  refine ⟨?_, ?_, ?_⟩
  · simp only
    rw [keyPairCanon_comm (boxPublicKeyOf skA) (boxPublicKeyOf skB)]
    simp
  · simp only
    rw [if_neg]
    rintro ⟨h1, h2, -⟩
    have hpair : keyPairCanon pk' (boxPublicKeyOf skB) =
        keyPairCanon (boxPublicKeyOf skB) (boxPublicKeyOf skA) := Prod.ext h1 h2
    rcases keyPairCanon_eq_iff hpair with ⟨ha, hb⟩ | ⟨ha, hb⟩
    · exact hpk (ha.trans hb)
    · exact hpk ha
  · simp only
    rw [if_neg]
    rintro ⟨h1, h2, -⟩
    have hpair : keyPairCanon (boxPublicKeyOf skA) (boxPublicKeyOf sk') =
        keyPairCanon (boxPublicKeyOf skB) (boxPublicKeyOf skA) := Prod.ext h1 h2
    rcases keyPairCanon_eq_iff hpair with ⟨ha, hb⟩ | ⟨ha, hb⟩
    · exact hsk ((boxPublicKeyOf_inj hb).trans (boxPublicKeyOf_inj ha))
    · exact hsk (boxPublicKeyOf_inj hb)

/-- Witness for C2 at concrete keys and plaintext. -/
theorem crypto_roundtrip_and_auth_fail_witness :
    ("x" ≠ boxPublicKeyOf "a") ∧ ("c" ≠ "b") ∧
    ((decryptMessage (some (encryptMessage "hi" (boxPublicKeyOf "b") "a" "n1").encrypted)
        (some (encryptMessage "hi" (boxPublicKeyOf "b") "a" "n1").nonce)
        (boxPublicKeyOf "a") "b" = some "hi") ∧
     (decryptMessage (some (encryptMessage "hi" (boxPublicKeyOf "b") "a" "n1").encrypted)
        (some (encryptMessage "hi" (boxPublicKeyOf "b") "a" "n1").nonce)
        "x" "b" = none) ∧
     (decryptMessage (some (encryptMessage "hi" (boxPublicKeyOf "b") "a" "n1").encrypted)
        (some (encryptMessage "hi" (boxPublicKeyOf "b") "a" "n1").nonce)
        (boxPublicKeyOf "a") "c" = none)) :=
  ⟨by decide, by decide,
    crypto_roundtrip_and_auth_fail "hi" "a" "b" "n1" "x" "c" (by decide) (by decide)⟩

theorem saveMessage_noop_of_dup {h : List Msg} {m : Msg} {n : Nat}
    (hany : (h.any fun mm => mm.id == m.id) = true) : saveMessage h m n = h := by
  unfold saveMessage
  rw [hany]
  simp

theorem any_id_of_mem {l : List Msg} {y m : Msg} (hy : y ∈ l) (hid : y.id = m.id) :
    (l.any fun mm => mm.id == m.id) = true :=
  List.any_eq_true.mpr ⟨y, hy, by rw [hid]; exact beq_self_eq_true _⟩

theorem mem_saveMessage_self {h : List Msg} {m : Msg} {n : Nat}
    (hlen : h.length < MAX_HISTORY_PER_CHAT) :
    ((saveMessage h m n).any fun mm => mm.id == m.id) = true := by
  unfold saveMessage
  by_cases hd : (h.any fun mm => mm.id == m.id) = true
  · rw [hd]
    simpa using hd
  · have hd' : (h.any fun mm => mm.id == m.id) = false := by
      cases hcase : h.any fun mm => mm.id == m.id
      · rfl
      · exact absurd hcase hd
    rw [hd']
    simp only [Bool.false_eq_true, if_false]
    have hfull : sliceLast MAX_HISTORY_PER_CHAT (sortJS msgLe (h ++ [stampMsg m n])) =
        sortJS msgLe (h ++ [stampMsg m n]) := by
      apply sliceLast_of_length_le
      rw [length_sortJS, List.length_append]
      simp only [List.length_singleton]
      omega
    rw [hfull]
    exact any_id_of_mem (mem_sortJS.mpr (List.mem_append.mpr (Or.inr (List.mem_singleton_self _)))) rfl

theorem storeMessage_noop_of_dup {h : List Msg} {m : Msg}
    (hany : (h.any fun mm => mm.id == m.id) = true) : storeMessage h m = h := by
  unfold storeMessage
  rw [hany]
  simp

theorem mem_storeMessage_self (h : List Msg) (m : Msg) :
    ((storeMessage h m).any fun mm => mm.id == m.id) = true := by
  unfold storeMessage
  by_cases hd : (h.any fun mm => mm.id == m.id) = true
  · rw [hd]
    simpa using hd
  · have hd' : (h.any fun mm => mm.id == m.id) = false := by
      cases hcase : h.any fun mm => mm.id == m.id
      · rfl
      · exact absurd hcase hd
    rw [hd']
    simp only [Bool.false_eq_true, if_false]
    by_cases hlen : (h ++ [m]).length > 100
    · rw [if_pos hlen]
      cases h with
      | nil => simp at hlen
      | cons x xs =>
        apply any_id_of_mem (y := m) _ rfl
        show m ∈ (x :: (xs ++ [m])).tail
        simp
    · rw [if_neg hlen]
      exact any_id_of_mem (List.mem_append.mpr (Or.inr (List.mem_singleton_self _))) rfl

/-- C3 (amended): a `saveMessage` call whose message id is already present
in the log is a silent no-op; calling `saveMessage` twice yields the same
log as calling it once whenever the message survives the first call's
retention truncation — in particular whenever the log held fewer than
`MAX_HISTORY_PER_CHAT` entries — and the server's `storeMessage` is
unconditionally idempotent. -/
theorem save_and_store_idempotent :
    (∀ (h : List Msg) (m : Msg) (n₁ n₂ : Nat),
      ((saveMessage h m n₁).any fun mm => mm.id == m.id) = true →
      saveMessage (saveMessage h m n₁) m n₂ = saveMessage h m n₁) ∧
    (∀ (h : List Msg) (m : Msg) (n₁ n₂ : Nat),
      h.length < MAX_HISTORY_PER_CHAT →
      saveMessage (saveMessage h m n₁) m n₂ = saveMessage h m n₁) ∧
    (∀ (h : List Msg) (m : Msg),
      storeMessage (storeMessage h m) m = storeMessage h m) := by
  refine ⟨?_, ?_, ?_⟩
  · intro h m n₁ n₂ hany
    exact saveMessage_noop_of_dup hany
  · intro h m n₁ n₂ hlen
    exact saveMessage_noop_of_dup (mem_saveMessage_self hlen)
  · intro h m
    exact storeMessage_noop_of_dup (mem_storeMessage_self h m)

/-- Witness for C3 (amended) at concrete inputs. -/
theorem save_and_store_idempotent_witness :
    ((saveMessage [{ id := some "p" }] { id := some "p" } 5).any
        fun mm => mm.id == ({ id := some "p" } : Msg).id) = true ∧
    saveMessage (saveMessage [{ id := some "p" }] { id := some "p" } 5) { id := some "p" } 9 =
      saveMessage [{ id := some "p" }] { id := some "p" } 5 ∧
    ([({ id := some "q" } : Msg)] : List Msg).length < MAX_HISTORY_PER_CHAT ∧
    saveMessage (saveMessage [{ id := some "q" }] { id := some "r" } 5) { id := some "r" } 9 =
      saveMessage [{ id := some "q" }] { id := some "r" } 5 ∧
    storeMessage (storeMessage [] { id := some "s" }) { id := some "s" } =
      storeMessage [] { id := some "s" } :=
  ⟨by decide,
   save_and_store_idempotent.1 [{ id := some "p" }] { id := some "p" } 5 9 (by decide),
   by decide,
   save_and_store_idempotent.2.1 [{ id := some "q" }] { id := some "r" } 5 9 (by decide),
   save_and_store_idempotent.2.2 [] { id := some "s" }⟩

theorem msgLe_true_of_lt {a b : Msg} (h : sortTime a < sortTime b) : msgLe a b = true := by
  simp [msgLe, h]

theorem msgLe_false_of_gt {a b : Msg} (h : sortTime b < sortTime a) : msgLe a b = false := by
  unfold msgLe
  have h1 : ¬ sortTime a < sortTime b := by omega
  have h2 : ¬ sortTime a = sortTime b := by omega
  simp [h1, h2]

theorem sortTime_c3Entry (i : Nat) : sortTime (c3Entry i) = i + 10 := by
  simp [c3Entry, sortTime, jsOrN]

theorem c3Entry_id_ne (i : Nat) : (c3Entry i).id ≠ c3Msg.id := by
  intro h
  simp only [c3Entry, c3Msg, Option.some.injEq] at h
  have hd : ([Char.ofNat (48 + i)] : List Char) = "zz".data := congrArg String.data h
  have : ([Char.ofNat (48 + i)] : List Char).length = "zz".data.length := by rw [hd]
  simp at this

theorem c3History_length : c3History.length = 1000 := by
  simp [c3History]

theorem c3History_sorted : SortedM c3History := by
  unfold c3History SortedM
  rw [List.pairwise_map]
  apply List.Pairwise.imp ?_ (List.pairwise_lt_range 1000)
  intro a b hab
  apply msgLe_true_of_lt
  rw [sortTime_c3Entry, sortTime_c3Entry]
  omega

theorem c3History_dedup : (c3History.any fun mm => mm.id == c3Msg.id) = false := by
  apply List.any_eq_false.mpr
  intro x hx
  rcases List.mem_map.mp hx with ⟨i, _, rfl⟩
  intro hcon
  exact c3Entry_id_ne i (beq_iff_eq.mp hcon)

theorem c3_first_call : saveMessage c3History c3Msg 1 = c3History := by
  unfold saveMessage
  rw [c3History_dedup]
  simp only [Bool.false_eq_true, if_false]
  rw [sortJS_append_singleton, sortJS_eq_self c3History_sorted,
    insertSorted_of_forall_not_le ?hall]
  case hall =>
    intro y hy
    rcases List.mem_map.mp hy with ⟨i, _, rfl⟩
    apply msgLe_false_of_gt
    rw [sortTime_c3Entry]
    show sortTime (stampMsg c3Msg 1) < i + 10
    simp [stampMsg, c3Msg, sortTime, jsOrN]
  rw [sliceLast_cons_of_le (by rw [c3History_length]; decide)]
  exact sliceLast_of_length_le (by rw [c3History_length]; decide)

theorem c3_second_mem : stampMsg c3Msg 5000 ∈ saveMessage c3History c3Msg 5000 := by
  unfold saveMessage
  rw [c3History_dedup]
  simp only [Bool.false_eq_true, if_false]
  rw [sortJS_append_singleton, sortJS_eq_self c3History_sorted,
    insertSorted_of_forall_le ?hall]
  case hall =>
    intro y hy
    rcases List.mem_map.mp hy with ⟨i, hir, rfl⟩
    apply msgLe_true_of_lt
    rw [sortTime_c3Entry]
    show i + 10 < sortTime (stampMsg c3Msg 5000)
    have hi : i < 1000 := List.mem_range.mp hir
    simp only [stampMsg, c3Msg, sortTime, jsOrN]
    simp
    omega
  apply mem_sliceLast (n := MAX_HISTORY_PER_CHAT)
  rw [sliceLast_sliceLast]
  show stampMsg c3Msg 5000 ∈ sliceLast MAX_HISTORY_PER_CHAT (c3History ++ [stampMsg c3Msg 5000])
  unfold sliceLast
  have hlen : (c3History ++ [stampMsg c3Msg 5000]).length - MAX_HISTORY_PER_CHAT = 1 := by
    rw [List.length_append, c3History_length]
    rfl
  rw [hlen, List.drop_append_of_le_length (by rw [c3History_length]; omega)]
  exact List.mem_append.mpr (Or.inr (List.mem_singleton_self _))

theorem c3_not_mem : stampMsg c3Msg 5000 ∉ c3History := by
  intro h
  rcases List.mem_map.mp h with ⟨i, _, heq⟩
  exact c3Entry_id_ne i (by rw [heq]; rfl)

/-- C3 counterexample: on a full log whose entries are all stamped in the
future of the local clock, a second `saveMessage` call with the very same
message changes the stored log (the first call evicted the message at the
retention boundary; the second call, at a later clock, re-inserts it). -/
theorem saveMessage_twice_counterexample :
    saveMessage (saveMessage c3History c3Msg 1) c3Msg 5000 ≠
      saveMessage c3History c3Msg 1 := by
  rw [c3_first_call]
  intro heq
  have h2 := c3_second_mem
  rw [heq] at h2
  exact c3_not_mem h2

theorem antisym_of_nodup {l : List Msg} (hnd : (l.map idStr).Nodup) :
    ∀ a ∈ l, ∀ b ∈ l, msgLe a b = true → msgLe b a = true → a = b := by
  intro a ha b hb hab hba
  exact List.inj_on_of_nodup_map hnd ha hb (msgLe_tie hab hba)

/-- Store convergence at the level of operation sequences: two sequences of
`saveMessage` / `saveMessagesBulk` calls contributing the same multiset of
stamped messages, with no repeated id, produce the same final log. -/
theorem foldSave_convergence (ops₁ ops₂ : List SaveOp)
    (hperm : (opsMsgs ops₁).Perm (opsMsgs ops₂))
    (hnd : ((opsMsgs ops₁).map idStr).Nodup) :
    ops₁.foldl applyOp [] = ops₂.foldl applyOp [] := by
  have hnd₂ : ((opsMsgs ops₂).map idStr).Nodup := ((hperm.map idStr).nodup_iff).mp hnd
  rw [foldSave_eq ops₁ hnd, foldSave_eq ops₂ hnd₂]
  have hsort : sortJS msgLe (opsMsgs ops₁) = sortJS msgLe (opsMsgs ops₂) := by
    apply sortedPermEq ((sortJS_perm _).trans (hperm.trans (sortJS_perm _).symm))
      (sortJS_sorted _) (sortJS_sorted _)
    intro a ha b hb hab hba
    exact antisym_of_nodup hnd a (mem_sortJS.mp ha) b (mem_sortJS.mp hb) hab hba
  rw [hsort]

theorem opsMsgs_singles (msgs : List (Msg × Nat)) :
    opsMsgs (msgs.map (fun p => SaveOp.single p.1 p.2)) =
      msgs.map (fun p => stampMsg p.1 p.2) := by
  induction msgs with
  | nil => rfl
  | cons p ps ih =>
    simp only [List.map_cons, opsMsgs, List.flatten_cons] at ih ⊢
    rw [show opMsgs (SaveOp.single p.1 p.2) = [stampMsg p.1 p.2] from rfl]
    simp only [List.cons_append, List.nil_append]
    rw [ih]

theorem stampMsg_of_savedAt {m : Msg} (h1 : m.savedAt ≠ none) (h2 : m.savedAt ≠ some 0)
    (now : Nat) : stampMsg m now = m := by
  unfold stampMsg
  cases hs : m.savedAt with
  | none => exact absurd hs h1
  | some t =>
    have ht : t ≠ 0 := by
      intro h
      exact h2 (by rw [hs, h])
    rw [show jsOrN (some t) now = t from by simp [jsOrN, ht]]
    rw [← hs]

/-- C4 (amended): merging the same finite set of messages — each already
carrying a receiver-local `savedAt` stamp, with pairwise-distinct ids —
into an empty conversation log via `saveMessage` in any arrival order and
under any local clocks produces an identical final ordered sequence. -/
theorem merge_convergence_of_savedAt (msgs₁ msgs₂ : List (Msg × Nat))
    (hperm : (msgs₁.map Prod.fst).Perm (msgs₂.map Prod.fst))
    (hsaved : ∀ p ∈ msgs₁, p.1.savedAt ≠ none ∧ p.1.savedAt ≠ some 0)
    (hnd : ((msgs₁.map Prod.fst).map idStr).Nodup) :
    (msgs₁.map (fun p => SaveOp.single p.1 p.2)).foldl applyOp [] =
      (msgs₂.map (fun p => SaveOp.single p.1 p.2)).foldl applyOp [] := by
  have hstamp₁ : msgs₁.map (fun p => stampMsg p.1 p.2) = msgs₁.map Prod.fst :=
    List.map_congr_left (fun p hp => stampMsg_of_savedAt (hsaved p hp).1 (hsaved p hp).2 p.2)
  have hsaved₂ : ∀ p ∈ msgs₂, p.1.savedAt ≠ none ∧ p.1.savedAt ≠ some 0 := by
    intro p hp
    have hmem : p.1 ∈ msgs₁.map Prod.fst :=
      hperm.mem_iff.mpr (List.mem_map_of_mem Prod.fst hp)
    rcases List.mem_map.mp hmem with ⟨q, hq, hfst⟩
    rw [← hfst]
    exact hsaved q hq
  have hstamp₂ : msgs₂.map (fun p => stampMsg p.1 p.2) = msgs₂.map Prod.fst :=
    List.map_congr_left (fun p hp => stampMsg_of_savedAt (hsaved₂ p hp).1 (hsaved₂ p hp).2 p.2)
  apply foldSave_convergence
  · rw [opsMsgs_singles, opsMsgs_singles, hstamp₁, hstamp₂]
    exact hperm
  · rw [opsMsgs_singles, hstamp₁]
    exact hnd

/-- Witness for C4 (amended) at two concrete two-message arrival orders. -/
theorem merge_convergence_of_savedAt_witness :
    (([(({ id := some "a", savedAt := some 50 } : Msg), 1),
       (({ id := some "b", savedAt := some 20 } : Msg), 2)].map Prod.fst).Perm
      ([(({ id := some "b", savedAt := some 20 } : Msg), 7),
        (({ id := some "a", savedAt := some 50 } : Msg), 9)].map Prod.fst)) ∧
    ([(({ id := some "a", savedAt := some 50 } : Msg), 1),
      (({ id := some "b", savedAt := some 20 } : Msg), 2)].map
        (fun p => SaveOp.single p.1 p.2)).foldl applyOp [] =
      ([(({ id := some "b", savedAt := some 20 } : Msg), 7),
        (({ id := some "a", savedAt := some 50 } : Msg), 9)].map
          (fun p => SaveOp.single p.1 p.2)).foldl applyOp [] :=
  ⟨by decide,
    merge_convergence_of_savedAt _ _ (by decide) (by decide) (by decide)⟩

/-- C4 counterexample: two replicas that receive the same two messages
(which carry no `savedAt` of their own) in opposite orders stamp them with
their own arrival clocks and end with different logs. -/
theorem merge_order_counterexample :
    saveMessage (saveMessage [] ({ id := some "a" } : Msg) 1) ({ id := some "b" } : Msg) 2 ≠
      saveMessage (saveMessage [] ({ id := some "b" } : Msg) 1) ({ id := some "a" } : Msg) 2 := by
  decide

/-- C7: after any sequence of `saveMessage` / `saveMessagesBulk` calls on an
initially empty log inserting more than `MAX_HISTORY_PER_CHAT` distinct
message ids, the stored log is exactly the `MAX_HISTORY_PER_CHAT` most
recent stamped messages by the sort key (`savedAt` falling back to
`timestamp`, id as tiebreak): it equals the sorted message sequence
truncated to its last `MAX_HISTORY_PER_CHAT` entries, has exactly that
length, and every evicted message sorts no later than every kept one. -/
theorem retention_bound (ops : List SaveOp)
    (hnd : ((opsMsgs ops).map idStr).Nodup)
    (hlen : (opsMsgs ops).length > MAX_HISTORY_PER_CHAT) :
    ops.foldl applyOp [] =
      sliceLast MAX_HISTORY_PER_CHAT (sortJS msgLe (opsMsgs ops)) ∧
    (ops.foldl applyOp []).length = MAX_HISTORY_PER_CHAT ∧
    (∀ a ∈ (sortJS msgLe (opsMsgs ops)).take
        ((opsMsgs ops).length - MAX_HISTORY_PER_CHAT),
      ∀ b ∈ ops.foldl applyOp [], msgLe a b = true) := by
  have he := foldSave_eq ops hnd
  refine ⟨he, ?_, ?_⟩
  · rw [he, length_sliceLast, length_sortJS]
    omega
  · intro a ha b hb
    rw [he] at hb
    set l := sortJS msgLe (opsMsgs ops) with hl
    have hlength : l.length = (opsMsgs ops).length := length_sortJS _
    have hk : l.length - MAX_HISTORY_PER_CHAT =
        (opsMsgs ops).length - MAX_HISTORY_PER_CHAT := by rw [hlength]
    have hb' : b ∈ l.drop ((opsMsgs ops).length - MAX_HISTORY_PER_CHAT) := by
      have : sliceLast MAX_HISTORY_PER_CHAT l =
          l.drop ((opsMsgs ops).length - MAX_HISTORY_PER_CHAT) := by
        unfold sliceLast
        rw [hk]
      rw [this] at hb
      exact hb
    have hs : SortedM (l.take ((opsMsgs ops).length - MAX_HISTORY_PER_CHAT) ++
        l.drop ((opsMsgs ops).length - MAX_HISTORY_PER_CHAT)) := by
      rw [List.take_append_drop]
      exact sortJS_sorted _
    exact (List.pairwise_append.mp hs).2.2 a ha b hb'

theorem c7_opsMsgs : opsMsgs c7Ops = opMsgs (SaveOp.bulk c7Msgs 5) := by
  unfold c7Ops opsMsgs
  simp

theorem c7_nodup : ((opsMsgs c7Ops).map idStr).Nodup := by
  rw [c7_opsMsgs, idStr_opMsgs_bulk]
  unfold c7Msgs
  rw [List.map_map]
  have hinj : Function.Injective (fun i : Nat => idStr { id := some ⟨List.replicate (i + 1) 'a'⟩ }) := by
    intro i j hij
    simp only [idStr, jsOrS] at hij
    have hi : (⟨List.replicate (i + 1) 'a'⟩ : String) ≠ "" := by
      intro h
      have := congrArg String.data h
      simp at this
    have hj : (⟨List.replicate (j + 1) 'a'⟩ : String) ≠ "" := by
      intro h
      have := congrArg String.data h
      simp at this
    rw [if_neg hi, if_neg hj] at hij
    have := congrArg String.data hij
    simp only at this
    have hlen := congrArg List.length this
    simp only [List.length_replicate] at hlen
    omega
  exact List.Nodup.map hinj (List.nodup_range 1001)

theorem opMsgs_bulk_length (ms : List Msg) (now : Nat) :
    (opMsgs (SaveOp.bulk ms now)).length = ms.length := by
  unfold opMsgs
  rw [List.length_map, List.enum_length]

theorem c7_length : (opsMsgs c7Ops).length > MAX_HISTORY_PER_CHAT := by
  rw [c7_opsMsgs, opMsgs_bulk_length]
  unfold c7Msgs
  rw [List.length_map, List.length_range]
  decide

/-- Witness for C7: a bulk import of 1001 distinct messages leaves a log of
exactly `MAX_HISTORY_PER_CHAT` entries. -/
theorem retention_bound_witness :
    ((opsMsgs c7Ops).map idStr).Nodup ∧
    (opsMsgs c7Ops).length > MAX_HISTORY_PER_CHAT ∧
    (c7Ops.foldl applyOp []).length = MAX_HISTORY_PER_CHAT :=
  ⟨c7_nodup, c7_length, (retention_bound c7Ops c7_nodup c7_length).2.1⟩

theorem lookupA_insert_self {α : Type} (k : String) (v : α) (l : List (String × α)) :
    lookupA (insertA k v l) k = some v := by
  unfold lookupA insertA
  rw [List.find?_cons_of_pos _ (by simp)]
  rfl

theorem lookupA_insert_ne {α : Type} {k k' : String} (h : k' ≠ k) (v : α)
    (l : List (String × α)) : lookupA (insertA k v l) k' = lookupA l k' := by
  unfold lookupA insertA
  rw [List.find?_cons_of_neg _ (by simp; exact fun hc => h hc.symm)]

theorem register_users (st : ServerState) (sid addr : String) (pk un : Option String)
    (now : Nat) : ((handleRegister st sid addr pk un now).1).users =
      insertA (strLower addr)
        ⟨sid, pk, true, now,
          jsOrOS ((lookupA st.users (strLower addr)).bind (fun u => u.username)) un⟩
        st.users := rfl

theorem register_sockets (st : ServerState) (sid addr : String) (pk un : Option String)
    (now : Nat) : ((handleRegister st sid addr pk un now).1).sockets =
      insertA sid (strLower addr) st.sockets := rfl

theorem handleDisconnect_stale {st : ServerState} {sid addr : String} {t : Nat} {u : SUser}
    (hsock : lookupA st.sockets sid = some addr)
    (hu : lookupA st.users addr = some u)
    (hne : (u.socketId == sid) = false) :
    handleDisconnect st sid t = (st, []) := by
  unfold handleDisconnect
  simp [hsock, hu, hne]

theorem handleDisconnect_active {st : ServerState} {sid addr : String} {t : Nat} {u : SUser}
    (hsock : lookupA st.sockets sid = some addr)
    (hu : lookupA st.users addr = some u)
    (hself : (u.socketId == sid) = true) :
    handleDisconnect st sid t =
      ({ st with users := insertA addr { u with online := false, lastSeen := t } st.users },
        [SEvent.userStatus sid addr false t]) := by
  unfold handleDisconnect
  simp [hsock, hu, hself]

/-- C8: if address `A` registers on socket `H1` and then re-registers on a
different socket `H2`, a disconnect of the stale socket `H1` changes
nothing — `A` stays online and no status is broadcast — while a disconnect
of the currently registered socket `H2` marks `A` offline and broadcasts
exactly one offline `userStatus` event. -/
theorem stale_socket_disconnect (st0 : ServerState) (h1 h2 addr : String)
    (pk1 pk2 un1 un2 : Option String) (t1 t2 t3 t4 : Nat) (hne : h1 ≠ h2) :
    handleDisconnect
        (handleRegister (handleRegister st0 h1 addr pk1 un1 t1).1 h2 addr pk2 un2 t2).1
        h1 t3 =
      ((handleRegister (handleRegister st0 h1 addr pk1 un1 t1).1 h2 addr pk2 un2 t2).1,
        []) ∧
    (∃ u, lookupA
        (handleRegister (handleRegister st0 h1 addr pk1 un1 t1).1 h2 addr pk2 un2 t2).1.users
        (strLower addr) = some u ∧ u.online = true) ∧
    (∃ u, lookupA
        (handleDisconnect
          (handleRegister (handleRegister st0 h1 addr pk1 un1 t1).1 h2 addr pk2 un2 t2).1
          h2 t4).1.users
        (strLower addr) = some u ∧ u.online = false) ∧
    (handleDisconnect
        (handleRegister (handleRegister st0 h1 addr pk1 un1 t1).1 h2 addr pk2 un2 t2).1
        h2 t4).2 = [SEvent.userStatus h2 (strLower addr) false t4] := by
  set na := strLower addr with hna
  set st1 := (handleRegister st0 h1 addr pk1 un1 t1).1 with hst1
  set st2 := (handleRegister st1 h2 addr pk2 un2 t2).1 with hst2
  set u2 : SUser :=
    ⟨h2, pk2, true, t2, jsOrOS ((lookupA st1.users na).bind (fun u => u.username)) un2⟩
    with hu2
  have husers : st2.users = insertA na u2 st1.users := register_users st1 h2 addr pk2 un2 t2
  have hsockets : st2.sockets = insertA h2 na st1.sockets :=
    register_sockets st1 h2 addr pk2 un2 t2
  have hsock1 : lookupA st2.sockets h1 = some na := by
    rw [hsockets, lookupA_insert_ne hne, hst1, register_sockets, lookupA_insert_self]
  have hsock2 : lookupA st2.sockets h2 = some na := by
    rw [hsockets, lookupA_insert_self]
  have huser2 : lookupA st2.users na = some u2 := by
    rw [husers, lookupA_insert_self]
  refine ⟨?_, ?_, ?_, ?_⟩
  · exact handleDisconnect_stale hsock1 huser2
      (by show (h2 == h1) = false; exact beq_eq_false_iff_ne.mpr (Ne.symm hne))
  · exact ⟨u2, huser2, rfl⟩
  · rw [handleDisconnect_active hsock2 huser2 (by simp)]
    exact ⟨{ u2 with online := false, lastSeen := t4 }, lookupA_insert_self _ _ _, rfl⟩
  · rw [handleDisconnect_active hsock2 huser2 (by simp)]

/-- Witness for C8 at concrete sockets, address and state. -/
theorem stale_socket_disconnect_witness :
    ("s1" : String) ≠ "s2" ∧
    (handleDisconnect
        (handleRegister (handleRegister ⟨[], [], [], [], []⟩ "s1" "0xAb" (some "pk") none 10).1
          "s2" "0xAb" (some "pk") none 20).1
        "s1" 30).2 = [] ∧
    (handleDisconnect
        (handleRegister (handleRegister ⟨[], [], [], [], []⟩ "s1" "0xAb" (some "pk") none 10).1
          "s2" "0xAb" (some "pk") none 20).1
        "s2" 40).2 = [SEvent.userStatus "s2" (strLower "0xAb") false 40] := by
  refine ⟨by decide, ?_, ?_⟩
  · have h := stale_socket_disconnect ⟨[], [], [], [], []⟩ "s1" "s2" "0xAb"
      (some "pk") (some "pk") none none 10 20 30 40 (by decide)
    rw [h.1]
  · exact (stale_socket_disconnect ⟨[], [], [], [], []⟩ "s1" "s2" "0xAb"
      (some "pk") (some "pk") none none 10 20 30 40 (by decide)).2.2.2

theorem storeMessage_length_le (h : List Msg) (m : Msg) :
    (storeMessage h m).length ≤ max h.length 100 := by
  unfold storeMessage
  by_cases hd : (h.any fun mm => mm.id == m.id) = true
  · rw [hd]
    simp
  · have hd' : (h.any fun mm => mm.id == m.id) = false := by
      cases hcase : h.any fun mm => mm.id == m.id
      · rfl
      · exact absurd hcase hd
    rw [hd']
    simp only [Bool.false_eq_true, if_false]
    by_cases hlen : (h ++ [m]).length > 100
    · rw [if_pos hlen]
      rw [List.length_tail, List.length_append]
      simp only [List.length_singleton]
      omega
    · rw [if_neg hlen]
      rw [List.length_append] at hlen ⊢
      simp only [List.length_singleton] at hlen ⊢
      omega

theorem storeMessage_evict (h : List Msg) (m : Msg)
    (hd : (h.any fun mm => mm.id == m.id) = false) (hlen : h.length = 100) :
    storeMessage h m = h.tail ++ [m] := by
  unfold storeMessage
  rw [hd]
  simp only [Bool.false_eq_true, if_false]
  rw [if_pos (by rw [List.length_append]; simp; omega)]
  cases h with
  | nil => simp at hlen
  | cons x xs => rfl

/-- C1: for every message relayed through the server's `sendMessage`
handler by a registered sender, the (id-assigned, server-stamped) full
message is appended to the conversation history through the
id-deduplicating, 100-capped, oldest-evicting `storeMessage`, regardless
of the delivery outcome; if the recipient address is registered and
online, the handler emits the message to the recipient's socket and
reports status `delivered` to the sender, otherwise it appends the
message to the recipient's offline buffer and reports `stored`. -/
theorem relay_sendMessage_contract (st : ServerState) (socketId sa : String)
    (messageData : Msg) (now : Nat) (genId : String) :
    ∃ (st' : ServerState) (evs : List SEvent) (fm : Msg),
      handleSendMessage st socketId (some sa) messageData now genId = some (st', evs) ∧
      fm.id = some (jsOrS messageData.id genId) ∧
      fm.encrypted = messageData.encrypted ∧
      lookupA st'.messageHistory (getConversationId sa (strLower messageData.to_)) =
        some (storeMessage
          ((lookupA st.messageHistory (getConversationId sa (strLower messageData.to_))).getD [])
          fm) ∧
      (∀ h : List Msg, (h.any fun mm => mm.id == fm.id) = true → storeMessage h fm = h) ∧
      (∀ h : List Msg, (storeMessage h fm).length ≤ max h.length 100) ∧
      (∀ h : List Msg, (h.any fun mm => mm.id == fm.id) = false → h.length = 100 →
        storeMessage h fm = h.tail ++ [fm]) ∧
      (match lookupA st.users (strLower messageData.to_) with
       | some u =>
         if u.online = true then
           evs = [SEvent.message u.socketId fm,
             SEvent.messageStatus socketId fm.id "delivered",
             SEvent.messageSent socketId fm] ∧
           st'.offlineMessages = st.offlineMessages
         else
           evs = [SEvent.messageStatus socketId fm.id "stored",
             SEvent.messageSent socketId fm] ∧
           lookupA st'.offlineMessages (strLower messageData.to_) =
             some ((lookupA st.offlineMessages (strLower messageData.to_)).getD [] ++ [fm])
       | none =>
         evs = [SEvent.messageStatus socketId fm.id "stored",
           SEvent.messageSent socketId fm] ∧
         lookupA st'.offlineMessages (strLower messageData.to_) =
           some ((lookupA st.offlineMessages (strLower messageData.to_)).getD [] ++ [fm])) := by
  set ta := strLower messageData.to_ with hta
  set fm : Msg := { messageData with
    to_ := ta
    from_ := some sa
    timestamp := now
    id := some (jsOrS messageData.id genId) } with hfm
  set convId := getConversationId sa ta with hconv
  set hist := (lookupA st.messageHistory convId).getD [] with hhist
  set st1 : ServerState :=
    { st with messageHistory := insertA convId (storeMessage hist fm) st.messageHistory }
    with hst1
  have hside : (∀ h : List Msg, (h.any fun mm => mm.id == fm.id) = true →
        storeMessage h fm = h) ∧
      (∀ h : List Msg, (storeMessage h fm).length ≤ max h.length 100) ∧
      (∀ h : List Msg, (h.any fun mm => mm.id == fm.id) = false → h.length = 100 →
        storeMessage h fm = h.tail ++ [fm]) :=
    ⟨fun _ hd => storeMessage_noop_of_dup hd,
     fun h => storeMessage_length_le h fm,
     fun h hd hlen => storeMessage_evict h fm hd hlen⟩
  rcases hrec : lookupA st.users ta with _ | u
  · refine ⟨{ st1 with
        offlineMessages :=
          insertA ta ((lookupA st.offlineMessages ta).getD [] ++ [fm]) st.offlineMessages },
      [SEvent.messageStatus socketId fm.id "stored", SEvent.messageSent socketId fm],
      fm, ?_, rfl, rfl, lookupA_insert_self _ _ _, hside.1, hside.2.1, hside.2.2, ?_⟩
    · simp only [handleSendMessage, hrec]
    · exact ⟨rfl, lookupA_insert_self _ _ _⟩
  · by_cases honline : u.online = true
    · refine ⟨st1,
        [SEvent.message u.socketId fm,
         SEvent.messageStatus socketId fm.id "delivered",
         SEvent.messageSent socketId fm],
        fm, ?_, rfl, rfl, lookupA_insert_self _ _ _, hside.1, hside.2.1, hside.2.2, ?_⟩
      · simp only [handleSendMessage, hrec, honline, if_true]
      · simp [honline]
    · refine ⟨{ st1 with
          offlineMessages :=
            insertA ta ((lookupA st.offlineMessages ta).getD [] ++ [fm]) st.offlineMessages },
        [SEvent.messageStatus socketId fm.id "stored", SEvent.messageSent socketId fm],
        fm, ?_, rfl, rfl, lookupA_insert_self _ _ _, hside.1, hside.2.1, hside.2.2, ?_⟩
      · simp [handleSendMessage, hrec, honline]
      · simp only [honline, Bool.false_eq_true, if_false]
        exact ⟨by trivial, lookupA_insert_self _ _ _⟩

/-- Witness for C1: the handler succeeds on a concrete registered sender. -/
theorem relay_sendMessage_contract_witness :
    (handleSendMessage ⟨[], [], [], [], []⟩ "sock" (some "0xme")
      { to_ := "0xyou" } 5 "g").isSome = true := by
  obtain ⟨st', evs, fm, heq, -⟩ :=
    relay_sendMessage_contract ⟨[], [], [], [], []⟩ "sock" "0xme" { to_ := "0xyou" } 5 "g"
  rw [heq]
  rfl

/-- C10 (amended): the copy of a relayed message that the server persists
(and delivers or buffers) carries a server-assigned `timestamp` (any
sender-supplied timestamp is overwritten), a server-generated id when the
sender supplies none, the sender's registered address as `from` (any
sender-supplied `from` is overwritten) and the lowercased recipient
address as `to`; all other sender-supplied fields pass through
unchanged. -/
theorem relay_sendMessage_server_fields (st : ServerState) (socketId sa : String)
    (messageData : Msg) (now : Nat) (genId : String) :
    ∃ (st' : ServerState) (evs : List SEvent) (fm : Msg),
      handleSendMessage st socketId (some sa) messageData now genId = some (st', evs) ∧
      lookupA st'.messageHistory (getConversationId sa (strLower messageData.to_)) =
        some (storeMessage
          ((lookupA st.messageHistory (getConversationId sa (strLower messageData.to_))).getD [])
          fm) ∧
      SEvent.messageSent socketId fm ∈ evs ∧
      (∀ u, lookupA st.users (strLower messageData.to_) = some u → u.online = true →
        SEvent.message u.socketId fm ∈ evs) ∧
      fm.timestamp = now ∧
      fm.id = some (jsOrS messageData.id genId) ∧
      fm.from_ = some sa ∧
      fm.to_ = strLower messageData.to_ ∧
      fm.content = messageData.content ∧
      fm.encrypted = messageData.encrypted ∧
      fm.nonce = messageData.nonce ∧
      fm.senderPublicKey = messageData.senderPublicKey ∧
      fm.senderUsername = messageData.senderUsername ∧
      fm.replyTo = messageData.replyTo ∧
      fm.savedAt = messageData.savedAt ∧
      fm.status = messageData.status ∧
      fm.transport = messageData.transport ∧
      fm.groupId = messageData.groupId ∧
      fm.groupName = messageData.groupName ∧
      fm.type_ = messageData.type_ ∧
      fm.queuedAt = messageData.queuedAt := by
  set ta := strLower messageData.to_ with hta
  set fm : Msg := { messageData with
    to_ := ta
    from_ := some sa
    timestamp := now
    id := some (jsOrS messageData.id genId) } with hfm
  set convId := getConversationId sa ta with hconv
  set hist := (lookupA st.messageHistory convId).getD [] with hhist
  set st1 : ServerState :=
    { st with messageHistory := insertA convId (storeMessage hist fm) st.messageHistory }
    with hst1
  rcases hrec : lookupA st.users ta with _ | u
  · refine ⟨{ st1 with
        offlineMessages :=
          insertA ta ((lookupA st.offlineMessages ta).getD [] ++ [fm]) st.offlineMessages },
      [SEvent.messageStatus socketId fm.id "stored", SEvent.messageSent socketId fm],
      fm, ?_, lookupA_insert_self _ _ _, by simp, ?_,
      rfl, rfl, rfl, rfl, rfl, rfl, rfl, rfl, rfl, rfl, rfl, rfl, rfl, rfl, rfl, rfl, rfl⟩
    · simp only [handleSendMessage, hrec]
    · intro u hu
      cases hu
  · by_cases honline : u.online = true
    · refine ⟨st1,
        [SEvent.message u.socketId fm,
         SEvent.messageStatus socketId fm.id "delivered",
         SEvent.messageSent socketId fm],
        fm, ?_, lookupA_insert_self _ _ _, by simp, ?_,
        rfl, rfl, rfl, rfl, rfl, rfl, rfl, rfl, rfl, rfl, rfl, rfl, rfl, rfl, rfl, rfl, rfl⟩
      · simp only [handleSendMessage, hrec, honline, if_true]
      · intro u' hu' _
        cases hu'
        simp
    · refine ⟨{ st1 with
          offlineMessages :=
            insertA ta ((lookupA st.offlineMessages ta).getD [] ++ [fm]) st.offlineMessages },
        [SEvent.messageStatus socketId fm.id "stored", SEvent.messageSent socketId fm],
        fm, ?_, lookupA_insert_self _ _ _, by simp, ?_,
        rfl, rfl, rfl, rfl, rfl, rfl, rfl, rfl, rfl, rfl, rfl, rfl, rfl, rfl, rfl, rfl, rfl⟩
      · simp [handleSendMessage, hrec, honline]
      · intro u' hu' honline'
        cases hu'
        exact absurd honline' honline

/-- Witness for C10 (amended): the delivery implication at an online
recipient on a concrete state. -/
theorem relay_sendMessage_server_fields_witness :
    (handleSendMessage
      ⟨[("0xyou", ⟨"rsock", some "pk", true, 1, none⟩)], [], [], [], []⟩
      "sock" (some "0xme") { to_ := "0xyou", timestamp := 123 } 999 "g").isSome = true := by
  obtain ⟨st', evs, fm, heq, -⟩ :=
    relay_sendMessage_server_fields
      ⟨[("0xyou", ⟨"rsock", some "pk", true, 1, none⟩)], [], [], [], []⟩
      "sock" "0xme" { to_ := "0xyou", timestamp := 123 } 999 "g"
  rw [heq]
  rfl

/-- C10 counterexample: a sender-supplied `from` field is not passed
through — the stored copy carries the sender's registered address
instead. -/
theorem sender_from_field_overwritten :
    ((handleSendMessage (ServerState.mk [] [] [] [] []) "sock" (some "0xme")
        { to_ := "0xyou", from_ := some "0xEVE", timestamp := 123 } 999 "g").map
      (fun r => (lookupA r.1.messageHistory (getConversationId "0xme" "0xyou")).map
        (fun h => h.map (fun m => m.from_)))) ≠
      some (some [({ to_ := "0xyou", from_ := some "0xEVE", timestamp := 123 } : Msg).from_]) := by
  decide

theorem savePendingMessage_append {outbox : List Msg} {msg : Msg} {now : Nat} {s : String}
    (hid : msg.id = some s) (hs : s ≠ "")
    (hdup : (outbox.any fun m => m.id == msg.id) = false) :
    savePendingMessage outbox msg now = outbox ++ [{ msg with queuedAt := some now }] := by
  unfold savePendingMessage
  rw [hid]
  simp only
  rw [if_neg hs, hid] at *
  rw [hdup]
  simp

theorem mem_savePendingMessage_self {o : List Msg} {m : Msg} {t : Nat} {s : String}
    (hid : m.id = some s) (hs : s ≠ "") (hdup : (o.any fun x => x.id == m.id) = false) :
    ∃ e ∈ savePendingMessage o m t, e.id = m.id ∧ e.status = m.status ∧
      e.transport = m.transport ∧ e.content = m.content ∧ e.from_ = m.from_ ∧
      e.to_ = m.to_ ∧ e.encrypted = m.encrypted := by
  rw [savePendingMessage_append hid hs hdup]
  exact ⟨_, List.mem_append.mpr (Or.inr (List.mem_singleton_self _)),
    rfl, rfl, rfl, rfl, rfl, rfl, rfl⟩

/-- C5: a send is never lost silently.  When the recipient's key cannot be
resolved, `sendEncryptedMessage` persists a full outbox entry with status
`pending` and transport `queued` retaining the plaintext, and fails with
the soft info-level error (unlike the hard missing-keys error); when the
key resolves but the P2P send fails and the relay socket is disconnected,
it persists the already-encrypted message to the outbox and returns a
`pending`/`queued` result instead of throwing. -/
theorem send_never_lost (env : ClientEnv) (senderAddress recipientAddress plainText : String)
    (replyTo : Option String) (metadata : SendMetadata) (outbox : List Msg)
    (myKeys : ClientKeys) (hkeys : env.keys = some myKeys)
    (hfresh : (outbox.any fun m => m.id == some env.freshId) = false)
    (hfreshne : env.freshId ≠ "") :
    (env.pubKeyOf recipientAddress = none →
      (sendEncryptedMessage env senderAddress recipientAddress plainText replyTo metadata
          outbox).result = .error .recipientOffline ∧
      errorLevel .recipientOffline = some "info" ∧
      errorLevel .noKeys = none ∧
      ∃ e ∈ (sendEncryptedMessage env senderAddress recipientAddress plainText replyTo
          metadata outbox).outbox,
        e.id = some env.freshId ∧ e.status = some "pending" ∧
        e.transport = some "queued" ∧ e.content = some plainText ∧
        e.from_ = some senderAddress ∧ e.to_ = recipientAddress) ∧
    (∀ k, env.pubKeyOf recipientAddress = some k →
      env.p2pSend recipientAddress = false → env.connected = false →
      ∃ r, (sendEncryptedMessage env senderAddress recipientAddress plainText replyTo
          metadata outbox).result = .ok r ∧
        r.status = some "pending" ∧ r.transport = some "queued" ∧
        ∃ e ∈ (sendEncryptedMessage env senderAddress recipientAddress plainText replyTo
            metadata outbox).outbox,
          e.id = some env.freshId ∧ e.encrypted ≠ none ∧ e.status = some "pending" ∧
          e.content = some plainText) := by
  constructor
  · intro hpub
    have hstep : sendEncryptedMessage env senderAddress recipientAddress plainText replyTo
        metadata outbox =
        ⟨.error .recipientOffline,
         savePendingMessage outbox
           { id := some env.freshId, from_ := some senderAddress, to_ := recipientAddress,
             content := some plainText, senderPublicKey := some myKeys.publicKey,
             senderUsername := env.username, replyTo := replyTo, timestamp := env.now,
             status := some "pending", transport := some "queued",
             groupId := metadata.groupId, groupName := metadata.groupName,
             type_ := some (jsOrS metadata.type_ "text") } env.now, [], []⟩ := by
      unfold sendEncryptedMessage
      rw [hkeys, hpub]
    rw [hstep]
    refine ⟨rfl, rfl, rfl, ?_⟩
    rw [show (⟨.error .recipientOffline, savePendingMessage outbox
           { id := some env.freshId, from_ := some senderAddress, to_ := recipientAddress,
             content := some plainText, senderPublicKey := some myKeys.publicKey,
             senderUsername := env.username, replyTo := replyTo, timestamp := env.now,
             status := some "pending", transport := some "queued",
             groupId := metadata.groupId, groupName := metadata.groupName,
             type_ := some (jsOrS metadata.type_ "text") } env.now, [], []⟩ : SendOutcome).outbox
        = savePendingMessage outbox
           { id := some env.freshId, from_ := some senderAddress, to_ := recipientAddress,
             content := some plainText, senderPublicKey := some myKeys.publicKey,
             senderUsername := env.username, replyTo := replyTo, timestamp := env.now,
             status := some "pending", transport := some "queued",
             groupId := metadata.groupId, groupName := metadata.groupName,
             type_ := some (jsOrS metadata.type_ "text") } env.now from rfl,
      savePendingMessage_append rfl hfreshne hfresh]
    exact ⟨_, List.mem_append.mpr (Or.inr (List.mem_singleton_self _)),
      rfl, rfl, rfl, rfl, rfl, rfl⟩
  · intro k hpub hp2p hconn
    have hstep : sendEncryptedMessage env senderAddress recipientAddress plainText replyTo
        metadata outbox =
        ⟨.ok {
            id := some env.freshId
            from_ := some senderAddress
            to_ := recipientAddress
            content := some plainText
            encrypted := some (encryptMessage plainText k myKeys.secretKey (env.nonces 0)).encrypted
            nonce := some (encryptMessage plainText k myKeys.secretKey (env.nonces 0)).nonce
            senderPublicKey := some myKeys.publicKey
            senderUsername := env.username
            replyTo := replyTo
            timestamp := env.now
            status := some "pending"
            transport := some "queued"
            groupId := metadata.groupId
            groupName := metadata.groupName
            type_ := some (jsOrS metadata.type_ "text") },
          savePendingMessage outbox {
            id := some env.freshId
            from_ := some senderAddress
            to_ := recipientAddress
            content := some plainText
            encrypted := some (encryptMessage plainText k myKeys.secretKey (env.nonces 0)).encrypted
            nonce := some (encryptMessage plainText k myKeys.secretKey (env.nonces 0)).nonce
            senderPublicKey := some myKeys.publicKey
            senderUsername := env.username
            replyTo := replyTo
            timestamp := env.now
            status := some "pending"
            groupId := metadata.groupId
            groupName := metadata.groupName
            type_ := some (jsOrS metadata.type_ "text") } env.now, [], []⟩ := by
      unfold sendEncryptedMessage
      rw [hkeys, hpub]
      simp only [hp2p, Bool.false_eq_true, if_false, hconn]
    rw [hstep]
    refine ⟨_, rfl, rfl, rfl, ?_⟩
    obtain ⟨e, he, h1, h2, h3, h4, h5, h6, h7⟩ :=
      mem_savePendingMessage_self (o := outbox) (t := env.now)
        (m := { id := some env.freshId, from_ := some senderAddress, to_ := recipientAddress, content := some plainText, encrypted := some (encryptMessage plainText k myKeys.secretKey (env.nonces 0)).encrypted, nonce := some (encryptMessage plainText k myKeys.secretKey (env.nonces 0)).nonce, senderPublicKey := some myKeys.publicKey, senderUsername := env.username, replyTo := replyTo, timestamp := env.now, status := some "pending", groupId := metadata.groupId, groupName := metadata.groupName, type_ := some (jsOrS metadata.type_ "text") })
        rfl hfreshne hfresh
    exact ⟨e, he, h1, by rw [h7]; simp, h2, h4⟩

/-- Witness for C5 at the two concrete environments. -/
theorem send_never_lost_witness :
    c5EnvA.keys = some ⟨"pk0", "sk0", none⟩ ∧ c5EnvA.freshId ≠ "" ∧
    c5EnvA.pubKeyOf "0xr" = none ∧
    (sendEncryptedMessage c5EnvA "0xs" "0xr" "hello" none {} []).result =
      .error .recipientOffline ∧
    c5EnvB.pubKeyOf "0xr" = some "rk" ∧ c5EnvB.connected = false ∧
    (∃ r, (sendEncryptedMessage c5EnvB "0xs" "0xr" "hello" none {} []).result = .ok r ∧
      r.status = some "pending" ∧ r.transport = some "queued") := by
  refine ⟨rfl, by decide, rfl, ?_, rfl, rfl, ?_⟩
  · exact ((send_never_lost c5EnvA "0xs" "0xr" "hello" none {} [] ⟨"pk0", "sk0", none⟩
      rfl (by decide) (by decide)).1 rfl).1
  · obtain ⟨r, hr, hs, ht, -⟩ := (send_never_lost c5EnvB "0xs" "0xr" "hello" none {} []
      ⟨"pk0", "sk0", none⟩ rfl (by decide) (by decide)).2 "rk" rfl rfl rfl
    exact ⟨r, hr, hs, ht⟩

theorem beq_symm_opt (a b : Option String) : (a == b) = (b == a) := by
  by_cases h : a = b
  · rw [h]
  · rw [beq_eq_false_iff_ne.mpr h, beq_eq_false_iff_ne.mpr (Ne.symm h)]

theorem flushGo_counts (env : ClientEnv) (K : ClientKeys) :
    ∀ (rem ob : List Msg) (s f : Nat) (sends : List (String × Msg)),
    (flushGo env K rem ob s f sends).sent + (flushGo env K rem ob s f sends).failed =
      s + f + rem.length := by
  intro rem
  induction rem with
  | nil =>
    intro ob s f sends
    simp [flushGo]
  | cons msg rest ih =>
    intro ob s f sends
    by_cases hc : env.connected = false
    · simp only [flushGo, if_pos hc]
      rw [ih]
      simp [List.length_cons]
      omega
    · by_cases hn : (msg.encrypted.isNone && truthyS msg.content) = true
      · cases hp : env.pubKeyOf msg.to_ with
        | none =>
          simp only [flushGo, if_neg hc, hn, if_true, hp]
          rw [ih]
          simp [List.length_cons]
          omega
        | some k =>
          simp only [flushGo, if_neg hc, hn, if_true, hp]
          rw [ih]
          simp [List.length_cons]
          omega
      · simp only [flushGo, if_neg hc, hn, Bool.false_eq_true, if_false]
        rw [ih]
        simp [List.length_cons]
        omega

theorem flushGo_outbox (env : ClientEnv) (K : ClientKeys) :
    ∀ (rem ob : List Msg) (s f : Nat) (sends : List (String × Msg)),
    (flushGo env K rem ob s f sends).outbox =
      ob.filter (fun o => !(rem.any (fun m => flushEntryOk env m && (m.id == o.id)))) := by
  intro rem
  induction rem with
  | nil =>
    intro ob s f sends
    simp [flushGo]
  | cons msg rest ih =>
    intro ob s f sends
    by_cases hc : env.connected = false
    · have hok : flushEntryOk env msg = false := by
        simp [flushEntryOk, hc]
      simp only [flushGo, if_pos hc]
      rw [ih]
      apply List.filter_congr
      intro o _
      simp only [List.any_cons, hok, Bool.false_and, Bool.false_or]
    · have hc' : env.connected = true := by
        cases hcase : env.connected
        · exact absurd hcase hc
        · rfl
      by_cases hn : (msg.encrypted.isNone && truthyS msg.content) = true
      · cases hp : env.pubKeyOf msg.to_ with
        | none =>
          have hok : flushEntryOk env msg = false := by
            simp [flushEntryOk, hc', hn, hp]
          simp only [flushGo, if_neg hc, hn, if_true, hp]
          rw [ih]
          apply List.filter_congr
          intro o _
          simp only [List.any_cons, hok, Bool.false_and, Bool.false_or]
        | some k =>
          have hok : flushEntryOk env msg = true := by
            simp [flushEntryOk, hc', hp]
          simp only [flushGo, if_neg hc, hn, if_true, hp]
          rw [ih]
          unfold removePendingMessage
          rw [List.filter_filter]
          apply List.filter_congr
          intro o _
          simp only [List.any_cons, hok, Bool.true_and, Bool.not_or,
            beq_symm_opt msg.id o.id]
          rw [Bool.and_comm]
      · have hok : flushEntryOk env msg = true := by
          have hn' : (msg.encrypted.isNone && truthyS msg.content) = false := by
            cases hcase : msg.encrypted.isNone && truthyS msg.content
            · rfl
            · exact absurd hcase hn
          simp [flushEntryOk, hc', hn']
        simp only [flushGo, if_neg hc, hn, Bool.false_eq_true, if_false]
        rw [ih]
        unfold removePendingMessage
        rw [List.filter_filter]
        apply List.filter_congr
        intro o _
        simp only [List.any_cons, hok, Bool.true_and, Bool.not_or,
          beq_symm_opt msg.id o.id]
        rw [Bool.and_comm]

theorem flushGo_all_ok (env : ClientEnv) (K : ClientKeys) :
    ∀ (rem ob : List Msg) (s f : Nat) (sends : List (String × Msg)),
    (∀ m ∈ rem, flushEntryOk env m = true) →
    (flushGo env K rem ob s f sends).failed = f ∧
    (flushGo env K rem ob s f sends).sent = s + rem.length ∧
    (flushGo env K rem ob s f sends).relaySends.length = sends.length + rem.length := by
  intro rem
  induction rem with
  | nil =>
    intro ob s f sends _
    simp [flushGo]
  | cons msg rest ih =>
    intro ob s f sends hall
    have hok : flushEntryOk env msg = true := hall msg (List.mem_cons_self _ _)
    have hc : ¬ env.connected = false := by
      intro hc
      simp [flushEntryOk, hc] at hok
    by_cases hn : (msg.encrypted.isNone && truthyS msg.content) = true
    · cases hp : env.pubKeyOf msg.to_ with
      | none =>
        exfalso
        have hc' : env.connected = true := by
          cases hcase : env.connected
          · exact absurd hcase hc
          · rfl
        simp [flushEntryOk, hc', hn, hp] at hok
      | some k =>
        simp only [flushGo, if_neg hc, hn, if_true, hp]
        rcases ih (removePendingMessage ob msg.id) (s + 1) f _
          (fun m hm => hall m (List.mem_cons_of_mem _ hm)) with ⟨h1, h2, h3⟩
        refine ⟨h1, ?_, ?_⟩
        · rw [h2]
          simp [List.length_cons]
          omega
        · rw [h3]
          simp [List.length_cons]
          omega
    · simp only [flushGo, if_neg hc, hn, Bool.false_eq_true, if_false]
      rcases ih (removePendingMessage ob msg.id) (s + 1) f _
        (fun m hm => hall m (List.mem_cons_of_mem _ hm)) with ⟨h1, h2, h3⟩
      refine ⟨h1, ?_, ?_⟩
      · rw [h2]
        simp [List.length_cons]
        omega
      · rw [h3]
        simp [List.length_cons]
        omega

theorem flushGo_failed_mono (env : ClientEnv) (K : ClientKeys) :
    ∀ (rem ob : List Msg) (s f : Nat) (sends : List (String × Msg)),
    f ≤ (flushGo env K rem ob s f sends).failed := by
  intro rem
  induction rem with
  | nil =>
    intro ob s f sends
    simp [flushGo]
  | cons msg rest ih =>
    intro ob s f sends
    by_cases hc : env.connected = false
    · simp only [flushGo, if_pos hc]
      exact Nat.le_trans (Nat.le_succ f) (ih _ _ _ _)
    · by_cases hn : (msg.encrypted.isNone && truthyS msg.content) = true
      · cases hp : env.pubKeyOf msg.to_ with
        | none =>
          simp only [flushGo, if_neg hc, hn, if_true, hp]
          exact Nat.le_trans (Nat.le_succ f) (ih _ _ _ _)
        | some k =>
          simp only [flushGo, if_neg hc, hn, if_true, hp]
          exact ih _ _ _ _
      · simp only [flushGo, if_neg hc, hn, Bool.false_eq_true, if_false]
        exact ih _ _ _ _

theorem flushGo_failed_of_bad (env : ClientEnv) (K : ClientKeys) :
    ∀ (rem ob : List Msg) (s f : Nat) (sends : List (String × Msg)) (m : Msg),
    m ∈ rem → flushEntryOk env m = false →
    f < (flushGo env K rem ob s f sends).failed := by
  intro rem
  induction rem with
  | nil =>
    intro ob s f sends m hm
    cases hm
  | cons msg rest ih =>
    intro ob s f sends m hm hbad
    by_cases hc : env.connected = false
    · simp only [flushGo, if_pos hc]
      exact Nat.lt_of_lt_of_le (Nat.lt_succ_self f) (flushGo_failed_mono env K _ _ _ _ _)
    · have hc' : env.connected = true := by
        cases hcase : env.connected
        · exact absurd hcase hc
        · rfl
      rcases List.mem_cons.mp hm with rfl | hm'
      · by_cases hn : (m.encrypted.isNone && truthyS m.content) = true
        · cases hp : env.pubKeyOf m.to_ with
          | none =>
            simp only [flushGo, if_neg hc, hn, if_true, hp]
            exact Nat.lt_of_lt_of_le (Nat.lt_succ_self f) (flushGo_failed_mono env K _ _ _ _ _)
          | some k =>
            exfalso
            simp [flushEntryOk, hc', hp] at hbad
        · exfalso
          have hn' : (m.encrypted.isNone && truthyS m.content) = false := by
            cases hcase : m.encrypted.isNone && truthyS m.content
            · rfl
            · exact absurd hcase hn
          simp [flushEntryOk, hc', hn'] at hbad
      · by_cases hn : (msg.encrypted.isNone && truthyS msg.content) = true
        · cases hp : env.pubKeyOf msg.to_ with
          | none =>
            simp only [flushGo, if_neg hc, hn, if_true, hp]
            exact Nat.lt_of_lt_of_le (Nat.lt_succ_self f)
              (Nat.le_of_lt (ih _ _ _ _ m hm' hbad))
          | some k =>
            simp only [flushGo, if_neg hc, hn, if_true, hp]
            exact ih _ _ _ _ m hm' hbad
        · simp only [flushGo, if_neg hc, hn, Bool.false_eq_true, if_false]
          exact ih _ _ _ _ m hm' hbad

/-- C6: `flushPendingMessages` processes every outbox entry, returning a
`{sent, failed}` summary with `sent + failed` equal to the outbox size
(total — it never raises for an individual message failure); with a
connected relay and all recipient keys resolvable it delivers every entry
to the relay and leaves the outbox empty; an entry queued before
encryption whose recipient key is still unresolvable is retained in the
outbox and counted as failed while the remaining entries are still
processed; and when the keystore is inaccessible nothing is sent and
every entry is reported failed. -/
theorem flush_outbox_contract (env : ClientEnv) (outbox : List Msg) (myKeys : ClientKeys)
    (hkeys : env.keys = some myKeys) :
    ((flushPendingMessages env outbox).sent + (flushPendingMessages env outbox).failed =
      outbox.length) ∧
    (env.connected = true → (∀ m ∈ outbox, (env.pubKeyOf m.to_).isSome = true) →
      (flushPendingMessages env outbox).outbox = [] ∧
      (flushPendingMessages env outbox).sent = outbox.length ∧
      (flushPendingMessages env outbox).failed = 0 ∧
      (flushPendingMessages env outbox).relaySends.length = outbox.length) ∧
    (∀ m ∈ outbox, (outbox.map (fun x => x.id)).Nodup →
      env.connected = true → m.encrypted = none → truthyS m.content = true →
      env.pubKeyOf m.to_ = none →
      m ∈ (flushPendingMessages env outbox).outbox ∧
      0 < (flushPendingMessages env outbox).failed) ∧
    (∀ (e : ClientEnv) (ob : List Msg), e.keys = none → ob ≠ [] →
      flushPendingMessages e ob = ⟨0, ob.length, ob, []⟩) := by
  have hall_ok : ∀ m ∈ outbox, env.connected = true → (env.pubKeyOf m.to_).isSome = true →
      flushEntryOk env m = true := by
    intro m _ hc hr
    simp [flushEntryOk, hc, hr]
  by_cases hob : outbox.length = 0
  · have hnil : outbox = [] := List.length_eq_zero.mp hob
    subst hnil
    refine ⟨?_, ?_, ?_, ?_⟩
    · simp [flushPendingMessages]
    · intro _ _
      simp [flushPendingMessages]
    · intro m hm
      cases hm
    · intro e ob hke hne
      unfold flushPendingMessages
      rw [if_neg (fun h => hne (List.length_eq_zero.mp h)), hke]
  · have hrun : flushPendingMessages env outbox = flushGo env myKeys outbox outbox 0 0 [] := by
      unfold flushPendingMessages
      rw [if_neg hob, hkeys]
    refine ⟨?_, ?_, ?_, ?_⟩
    · rw [hrun]
      have h := flushGo_counts env myKeys outbox outbox 0 0 []
      omega
    · intro hc hres
      have hok : ∀ m ∈ outbox, flushEntryOk env m = true :=
        fun m hm => hall_ok m hm hc (hres m hm)
      rcases flushGo_all_ok env myKeys outbox outbox 0 0 [] hok with ⟨h1, h2, h3⟩
      rw [hrun]
      refine ⟨?_, by omega, h1, by simpa using h3⟩
      rw [flushGo_outbox]
      apply List.filter_eq_nil_iff.mpr
      intro o ho
      have hany : (outbox.any fun m => flushEntryOk env m && (m.id == o.id)) = true :=
        List.any_eq_true.mpr ⟨o, ho, by rw [hok o ho, beq_self_eq_true]; rfl⟩
      simp [hany]
    · intro m hm hnd hc henc hcont hpub
      have hbad : flushEntryOk env m = false := by
        simp [flushEntryOk, hc, henc, hcont, hpub]
      constructor
      · rw [hrun, flushGo_outbox]
        apply List.mem_filter.mpr
        refine ⟨hm, ?_⟩
        simp only [Bool.not_eq_true', List.any_eq_false]
        intro m' hm'
        by_cases hid : (m'.id == m.id) = true
        · have heq : m' = m := List.inj_on_of_nodup_map hnd hm' hm (beq_iff_eq.mp hid)
          rw [heq, hbad]
          simp
        · have hid' : (m'.id == m.id) = false := by
            cases hcase : m'.id == m.id
            · rfl
            · exact absurd hcase hid
          rw [hid']
          simp
      · rw [hrun]
        exact flushGo_failed_of_bad env myKeys outbox outbox 0 0 [] m hm hbad
    · intro e ob hke hne
      unfold flushPendingMessages
      by_cases h0 : ob.length = 0
      · exact absurd (List.length_eq_zero.mp h0) hne
      · rw [if_neg h0, hke]

/-- Witness for C6 at the concrete environments and outbox. -/
theorem flush_outbox_contract_witness :
    c6EnvGood.connected = true ∧
    (∀ m ∈ c6Outbox, (c6EnvGood.pubKeyOf m.to_).isSome = true) ∧
    (flushPendingMessages c6EnvGood c6Outbox).outbox = [] ∧
    (flushPendingMessages c6EnvGood c6Outbox).sent = c6Outbox.length ∧
    ({ id := some "m2", to_ := "0xc", content := some "hey" } : Msg) ∈
      (flushPendingMessages c6EnvBad c6Outbox).outbox ∧
    0 < (flushPendingMessages c6EnvBad c6Outbox).failed := by
  have hgood := flush_outbox_contract c6EnvGood c6Outbox ⟨"pkg", "skg", none⟩ rfl
  have hbad := flush_outbox_contract c6EnvBad c6Outbox ⟨"pkg", "skg", none⟩ rfl
  have hbadm := hbad.2.2.1 { id := some "m2", to_ := "0xc", content := some "hey" }
    (by decide) (by decide) rfl rfl (by decide) rfl
  exact ⟨rfl, by decide, (hgood.2.1 rfl (by decide)).1, (hgood.2.1 rfl (by decide)).2.1,
    hbadm.1, hbadm.2⟩

theorem boxPublicKeyOf_ne_empty (sk : String) : boxPublicKeyOf sk ≠ "" := by
  intro h
  have hd := congrArg String.data h
  simp [boxPublicKeyOf] at hd

theorem naclBox_roundtrip_same (m n pk sk : String) :
    naclBoxOpen (naclBox m n pk sk) n pk sk = some m := by
  unfold naclBox naclBoxOpen
  simp

/-- C9: when `decryptReceivedMessage` processes a message whose `from`
address equals the caller's own address, it decrypts with the recipient's
public key resolved via the relay — not the `senderPublicKey` embedded in
the message, which here is arbitrary junk — and recovers the original
plaintext. -/
theorem self_decrypt_uses_recipient_key (env : ClientEnv)
    (A B skA skB m n junk : String) (msgId : Option String) (hA : A ≠ "")
    (hpub : env.pubKeyOf B = some (boxPublicKeyOf skB)) :
    ∃ r, decryptReceivedMessage env
        { id := msgId, from_ := some A, to_ := B,
          encrypted := some (encryptMessage m (boxPublicKeyOf skB) skA n).encrypted,
          nonce := some n, senderPublicKey := some junk }
        (some ⟨boxPublicKeyOf skA, skA, none⟩) (some A) = .ok r ∧
      r.content = some m ∧ r.decryptionFailed = some false := by
  have hkB : boxPublicKeyOf skB ≠ "" := boxPublicKeyOf_ne_empty skB
  have hwallet : jsOrOS (some A) (none : Option String) = some A := by
    simp [jsOrOS, hA]
  have hsender : (truthyS (some A) && (strLower A == strLower (jsOrS (some A) ""))) = true := by
    simp [truthyS, hA, jsOrS]
  have hcontent : decryptMessage
      (some (encryptMessage m (boxPublicKeyOf skB) skA n).encrypted)
      (some n) (jsOrS (some (boxPublicKeyOf skB)) "") skA = some m := by
    rw [show jsOrS (some (boxPublicKeyOf skB)) "" = boxPublicKeyOf skB from by
      simp [jsOrS, hkB]]
    exact naclBox_roundtrip_same m n (boxPublicKeyOf skB) skA
  refine ⟨{ id := msgId, from_ := some A, to_ := B, content := some m, encrypted := some (encryptMessage m (boxPublicKeyOf skB) skA n).encrypted, nonce := some n, senderPublicKey := some junk, type_ := some "text", decryptionFailed := some false }, ?_, rfl, rfl⟩
  unfold decryptReceivedMessage
  simp only
  rw [if_neg (by simp)]
  simp only [hwallet, hsender, if_true, hpub]
  rw [if_neg (by simp [truthyS, hkB]), hcontent]
  rfl

/-- Witness for C9 at concrete addresses and keys. -/
theorem self_decrypt_uses_recipient_key_witness :
    ("0xa" : String) ≠ "" ∧
    c9Env.pubKeyOf "0xb" = some (boxPublicKeyOf "b") ∧
    (decryptReceivedMessage c9Env
        { id := some "m9", from_ := some "0xa", to_ := "0xb",
          encrypted := some (encryptMessage "hi" (boxPublicKeyOf "b") "a" "n1").encrypted,
          nonce := some "n1", senderPublicKey := some "junk" }
        (some ⟨boxPublicKeyOf "a", "a", none⟩) (some "0xa")).map
      (fun r => (r.content, r.decryptionFailed)) = .ok (some "hi", some false) := by
  refine ⟨by decide, rfl, ?_⟩
  obtain ⟨r, heq, hc, hd⟩ := self_decrypt_uses_recipient_key c9Env "0xa" "0xb" "a" "b"
    "hi" "n1" "junk" (some "m9") (by decide) rfl
  rw [heq]
  simp only [Except.map]
  rw [hc, hd]
